import Mathlib

/-!
Verification of the btclib elliptic-curve core (`btclib/ec.py`).

The Python source is shallowly embedded: Python unbounded integers become `ℤ`,
`x % p` becomes `Int.emod` (which agrees with Python's `%` for a positive
modulus), `x >> k` on the non-negative integers in use becomes division by
`2 ^ k`, and code that can raise becomes `Except Err`.

The module `btclib.numbertheory` (`mod_inv`, `mod_sqrt`, `legendre_symbol`) is
not part of the sources; those three functions are modelled from the
specification (section 4.A), as marked in their doc comments.
-/

namespace Btclib

/-- Error kinds, following the taxonomy of spec section 7; each constructor is
raised exactly where the corresponding Python exception is raised. -/
inductive Err where
  /-- `TypeError` / `ValueError "Point must be a tuple[int, int]"` for a bad point shape. -/
  | typeMismatch
  /-- `ValueError` for an out-of-range coordinate, a bad 0/1 flag, or `mod_inv` on a
  non-invertible argument. -/
  | invalidInput
  /-- `ValueError "Point not on curve"`. -/
  | notOnCurve
  /-- `ValueError` from `mod_sqrt` when the argument is a non-residue. -/
  | noSquareRoot
  /-- `ValueError "this method works only when p = 3 (mod 4)"`. -/
  | unsupportedPrime
  /-- `ValueError` from a failed SEC 1 check in `EC.__init__`. -/
  | validation
  /-- `UserWarning` (weak curve / security level) from `EC.__init__`. -/
  | weakCurve
  deriving DecidableEq, Repr

/-- Affine point (`class Point(NamedTuple)`); the infinity point is any point with
`y = 0`, canonically `Point() = ⟨1, 0⟩`. -/
structure Point where
  x : ℤ := 1
  y : ℤ := 0
  deriving DecidableEq, Repr

/-- Jacobian point (`class _JacPoint(NamedTuple)`); the infinity point is any point
with `z = 0`, canonically `_JacPoint() = ⟨1, 1, 0⟩`. -/
structure JacPoint where
  x : ℤ := 1
  y : ℤ := 1
  z : ℤ := 0
  deriving DecidableEq, Repr

/-- `_jac_from_aff`. -/
def jac_from_aff (Q : Point) : JacPoint :=
  if Q.y = 0 then ⟨1, 1, 0⟩ else ⟨Q.x, Q.y, 1⟩

/-- Modelled from the spec: `btclib.numbertheory.mod_inv` is not among the sources.
Spec 4.A: "`mod_inv(a, m)`: extended Euclidean; fails with `InvalidInput` if
gcd(a, m) ≠ 1."  For `m > 0` the inverse reduced into `[0, m)` is unique when it
exists, so the extended-Euclidean result is modelled as the search for that
reduced inverse. -/
def mod_inv (a m : ℤ) : Except Err ℤ :=
  match (List.range m.toNat).find? (fun i : ℕ => decide (a * (i : ℤ) % m = 1 % m)) with
  | some i => .ok (i : ℤ)
  | none => .error .invalidInput

/-- Modelled from the spec: `btclib.numbertheory.legendre_symbol` is not among the
sources.  Spec 4.A fixes it exactly: "`legendre_symbol(a, p) = a^((p−1)/2) mod p`". -/
def legendre_symbol (a p : ℤ) : ℤ :=
  a ^ ((p - 1) / 2).toNat % p

/-- Modelled from the spec: `btclib.numbertheory.mod_sqrt` is not among the sources.
Spec 4.A: "Tonelli–Shanks. Fast path when p ≡ 3 (mod 4): return a^((p+1)/4) mod p;
verify by squaring. Fails with `NoSquareRoot` when a is a non-residue."  For the
remaining primes the spec fixes only that a square root in `[0, p)` is returned
when one exists; that branch is modelled as the least such root. -/
def mod_sqrt (a p : ℤ) : Except Err ℤ :=
  if p % 4 = 3 then
    let root := a ^ ((p + 1) / 4).toNat % p
    if root * root % p = a % p then .ok root else .error .noSquareRoot
  else
    match (List.range p.toNat).find? (fun r : ℕ => decide ((r : ℤ) * (r : ℤ) % p = a % p)) with
    | some r => .ok (r : ℤ)
    | none => .error .noSquareRoot

/-- Integer square root by bounded search: for `n ≥ 0` the number of `i ≤ n` with
`i² ≤ n` is `⌊√n⌋ + 1`.  Used to model the float expression `2 * sqrt(p)` of
`EC.__init__` (see `mkEC`). -/
def intSqrt (n : ℤ) : ℤ :=
  (((List.range (n.toNat + 1)).filter fun i : ℕ => decide ((i : ℤ) * i ≤ n)).length : ℤ) - 1

/-- Bit length by bounded search: the number of `k ≤ m` with `2 ^ k ≤ m` is the
bit length of `m` (`int.bit_length` in Python); see `bitLength_eq_size`. -/
def bitLength (n : ℤ) : ℕ :=
  ((List.range (n.natAbs + 1)).filter fun k : ℕ => decide (2 ^ k ≤ n.natAbs)).length

/-- Curve state; the fields mirror the attributes `_p`, `_a`, `_b`, `G`, `n`, `h`, `t`
of `class EC`.  The derived attributes (`bytesize`, `pIsThreeModFour`) are functions
of these. -/
structure EC where
  p : ℤ
  a : ℤ
  b : ℤ
  G : Point
  n : ℤ
  h : ℤ
  t : ℤ := 0
  deriving DecidableEq, Repr

instance {e a : Type} [DecidableEq e] [DecidableEq a] : DecidableEq (Except e a) := fun u v =>
  match u, v with
  | .ok x, .ok y => decidable_of_iff (x = y) (by simp)
  | .error x, .error y => decidable_of_iff (x = y) (by simp)
  | .ok _, .error _ => isFalse (by simp)
  | .error _, .ok _ => isFalse (by simp)

/-- `self.pIsThreeModFour = (self._p % 4 == 3)`. -/
def EC.pIsThreeModFour (ec : EC) : Prop := ec.p % 4 = 3

instance (ec : EC) : Decidable ec.pIsThreeModFour := by
  unfold EC.pIsThreeModFour; infer_instance

/-- `EC._y2`: the right-hand side `((x*x + a)*x + b) % p`. -/
def EC.y2 (ec : EC) (x : ℤ) : ℤ :=
  ((x * x + ec.a) * x + ec.b) % ec.p

/-- `EC.isOnCurve` on a raw integer tuple of any arity (the Python argument is
duck-typed; a tuple of length other than two is rejected). -/
def EC.isOnCurveL (ec : EC) (Q : List ℤ) : Except Err Bool :=
  match Q with
  | [x, y] =>
    if y = 0 then .ok true
    else if ¬(0 < y ∧ y < ec.p) then .error .invalidInput
    else .ok (decide (ec.y2 x = y * y % ec.p))
  | _ => .error .typeMismatch

/-- `EC.isOnCurve` on a well-shaped point. -/
def EC.isOnCurve (ec : EC) (Q : Point) : Except Err Bool :=
  ec.isOnCurveL [Q.x, Q.y]

/-- `EC.requireOnCurve`. -/
def EC.requireOnCurve (ec : EC) (Q : Point) : Except Err Unit := do
  if ← ec.isOnCurve Q then pure () else .error .notOnCurve

/-- `EC.opposite`. -/
def EC.opposite (ec : EC) (Q : Point) : Except Err Point := do
  ec.requireOnCurve Q
  if Q.y = 0 then return Q
  else return ⟨Q.x, ec.p - Q.y⟩

/-- `EC._affine_from_jac`. -/
def EC.affine_from_jac (ec : EC) (Q : JacPoint) : Except Err Point := do
  if Q.z = 0 then return ⟨1, 0⟩
  else
    let Z2 := Q.z * Q.z
    let ix ← mod_inv Z2 ec.p
    let iy ← mod_inv (Z2 * Q.z) ec.p
    return ⟨Q.x * ix % ec.p, Q.y * iy % ec.p⟩

/-- `EC._addJacobian` (total: it performs no modular inversion). -/
def EC.addJacobian (ec : EC) (Q R : JacPoint) : JacPoint :=
  if Q.z = 0 then R
  else if R.z = 0 then Q
  else
    let RZ2 := R.z * R.z
    let RZ3 := RZ2 * R.z
    let QZ2 := Q.z * Q.z
    let QZ3 := QZ2 * Q.z
    if Q.x * RZ2 % ec.p = R.x * QZ2 % ec.p then
      if Q.y * RZ3 % ec.p = R.y * QZ3 % ec.p then
        let QY2 := Q.y * Q.y
        let W := (3 * Q.x * Q.x + ec.a * QZ2 * QZ2) % ec.p
        let V := 4 * Q.x * QY2 % ec.p
        let X := (W * W - 2 * V) % ec.p
        let Y := (W * (V - X) - 8 * QY2 * QY2) % ec.p
        let Z := 2 * Q.y * Q.z % ec.p
        ⟨X, Y, Z⟩
      else ⟨1, 1, 0⟩
    else
      let T := Q.y * RZ3 % ec.p
      let U := R.y * QZ3 % ec.p
      let W := (U - T) % ec.p
      let M := Q.x * RZ2 % ec.p
      let N := R.x * QZ2 % ec.p
      let V := (N - M) % ec.p
      let V2 := V * V
      let V3 := V2 * V
      let MV2 := M * V2
      let X := (W * W - V3 - 2 * MV2) % ec.p
      let Y := (W * (MV2 - X) - T * V3) % ec.p
      let Z := V * Q.z * R.z % ec.p
      ⟨X, Y, Z⟩

/-- `EC._addAffine`.  The shared tail computing `(x, y)` from `lam` is duplicated
in the two branches that reach it. -/
def EC.addAffine (ec : EC) (Q R : Point) : Except Err Point := do
  if R.y = 0 then return Q
  if Q.y = 0 then return R
  if R.x = Q.x then
    if R.y = Q.y then
      let i ← mod_inv (2 * Q.y) ec.p
      let lam := (3 * Q.x * Q.x + ec.a) * i % ec.p
      let x := (lam * lam - Q.x - R.x) % ec.p
      return ⟨x, (lam * (Q.x - x) - Q.y) % ec.p⟩
    else
      return ⟨1, 0⟩
  else
    let i ← mod_inv (R.x - Q.x) ec.p
    let lam := (R.y - Q.y) * i % ec.p
    let x := (lam * lam - Q.x - R.x) % ec.p
    return ⟨x, (lam * (Q.x - x) - Q.y) % ec.p⟩

/-- `EC.add`. -/
def EC.add (ec : EC) (Q1 Q2 : Point) : Except Err Point := do
  ec.requireOnCurve Q1
  ec.requireOnCurve Q2
  ec.affine_from_jac (ec.addJacobian (jac_from_aff Q1) (jac_from_aff Q2))

/-- `EC.y`. -/
def EC.y (ec : EC) (x : ℤ) : Except Err ℤ :=
  if ¬(0 ≤ x ∧ x < ec.p) then .error .invalidInput
  else mod_sqrt (ec.y2 x) ec.p

/-- `EC.yOdd`. -/
def EC.yOdd (ec : EC) (x odd1even0 : ℤ) : Except Err ℤ := do
  if odd1even0 ≠ 0 ∧ odd1even0 ≠ 1 then .error .invalidInput
  let root ← ec.y x
  if root % 2 = odd1even0 then return root else return ec.p - root

/-- `EC.yQuadraticResidue`. -/
def EC.yQuadraticResidue (ec : EC) (x quadRes : ℤ) : Except Err ℤ := do
  if quadRes ≠ 0 ∧ quadRes ≠ 1 then .error .invalidInput
  if ¬ec.pIsThreeModFour then .error .unsupportedPrime
  let root ← ec.y x
  if legendre_symbol root ec.p = quadRes then return root else return ec.p - root

/-- The while-loop of `_pointMultJacobian`: LSB-first double and add.  The loop
halves a positive `n` each iteration, so `n.toNat` iterations always suffice;
the explicit bound keeps the recursion structural. -/
def pointMultLoop (ec : EC) : ℕ → ℤ → JacPoint → JacPoint → JacPoint
  | 0, _, R, _ => R
  | fuel + 1, n, R, Q =>
    if 0 < n then
      pointMultLoop ec fuel (n / 2) (if n % 2 = 1 then ec.addJacobian R Q else R)
        (ec.addJacobian Q Q)
    else R

/-- `_pointMultJacobian`. -/
def pointMultJacobian (ec : EC) (n : ℤ) (Q : JacPoint) : JacPoint :=
  if Q.z = 0 then ⟨1, 1, 0⟩
  else pointMultLoop ec n.toNat n ⟨1, 1, 0⟩ Q

/-- `pointMult`. -/
def pointMult (ec : EC) (n : ℤ) (Q : Point) : Except Err Point := do
  ec.requireOnCurve Q
  let QJ := jac_from_aff Q
  ec.affine_from_jac (pointMultJacobian ec (n % ec.n) QJ)

/-- The while-loop of `DblScalarMult` (Shamir's trick), counting `msb` down; the
shift `u >> (msb - 1)` on the non-negative scalars in use is division by
`2 ^ (msb - 1)`. -/
def shamirLoop (ec : EC) : ℕ → ℤ → ℤ → JacPoint → JacPoint → JacPoint → JacPoint
  | 0, _, _, R, _, _ => R
  | msb + 1, u, v, R, QJ, PJ =>
    let R1 := if u / 2 ^ msb ≠ 0 then ec.addJacobian R QJ else R
    let u1 := if u / 2 ^ msb ≠ 0 then u - 2 ^ (bitLength u - 1) else u
    let R2 := if v / 2 ^ msb ≠ 0 then ec.addJacobian R1 PJ else R1
    let v1 := if v / 2 ^ msb ≠ 0 then v - 2 ^ (bitLength v - 1) else v
    let R3 := if 0 < msb then ec.addJacobian R2 R2 else R2
    shamirLoop ec msb u1 v1 R3 QJ PJ

/-- `DblScalarMult`. -/
def DblScalarMult (ec : EC) (u : ℤ) (Q : Point) (v : ℤ) (P : Point) :
    Except Err Point := do
  if u = 0 then
    if v = 0 then return ⟨1, 0⟩
    ec.requireOnCurve P
    let PJ := jac_from_aff P
    return ← ec.affine_from_jac (pointMultJacobian ec (v % ec.n) PJ)
  ec.requireOnCurve Q
  if Q.y = 0 then
    ec.requireOnCurve P
    let PJ := jac_from_aff P
    return ← ec.affine_from_jac (pointMultJacobian ec (v % ec.n) PJ)
  let u1 := u % ec.n
  let QJ := jac_from_aff Q
  if v = 0 then
    return ← ec.affine_from_jac (pointMultJacobian ec u1 QJ)
  ec.requireOnCurve P
  if P.y = 0 then
    return ← ec.affine_from_jac (pointMultJacobian ec u1 QJ)
  let v1 := v % ec.n
  let PJ := jac_from_aff P
  let msb := max (bitLength u1) (bitLength v1)
  ec.affine_from_jac (shamirLoop ec msb u1 v1 ⟨1, 1, 0⟩ QJ PJ)

/-- The `required_bits` table of `EC.__init__`. -/
def requiredBits (t : ℤ) : ℤ :=
  if t = 80 ∨ t = 96 then 192
  else if t = 112 then 224
  else if t = 128 then 256
  else if t = 192 then 384
  else 521

/-- Step 7 of `EC.__init__`: `InfMinusG = pointMult(self, n-1, G); Inf = add(InfMinusG, G)`. -/
def checkOrder (ec : EC) : Except Err Point := do
  let InfMinusG ← pointMult ec (ec.n - 1) ec.G
  ec.add InfMinusG ec.G

/-- A single `if cond: raise e` check of `EC.__init__`. -/
def checkGuard (c : Prop) [Decidable c] (e : Err) : Except Err Unit :=
  if c then .error e else .ok ()

/-- `EC.__init__`, the SEC 1 parameter validation, as the sequence of its checks
(each `if cond: raise` statement becomes one `checkGuard`; a check nested inside
`if t != 0 and all_checks` or `if all_checks` carries that condition in its
guard, which preserves the raise order).  The float expressions `int(2 * sqrt(p))`
and `int(pow(sqrt(p) + 1, 2) // n)` are modelled as exact real arithmetic:
`⌊2√p⌋ = intSqrt (4p)` and `⌊(√p+1)² / n⌋ = (p + 1 + ⌊2√p⌋) / n`.  The
duck-typing check `len(G) != 2` has no counterpart as `G` is a `Point`.
`pow(2, t/8)` uses float division, but `t` is in `t_range` (all multiples of 8)
whenever that check runs, so it is exact. -/
def mkEC (p a b : ℤ) (G : Point) (n h : ℤ) (t : ℤ := 0)
    (all_checks : Bool := true) : Except Err EC := do
  checkGuard (p % 2 = 0) .validation
  checkGuard (¬2 ^ (p - 1).toNat % p = 1) .validation
  checkGuard (t ≠ 0 ∧ all_checks ∧
    ¬(t = 80 ∨ t = 96 ∨ t = 112 ∨ t = 128 ∨ t = 192 ∨ t = 256)) .weakCurve
  checkGuard (t ≠ 0 ∧ all_checks ∧ (bitLength p : ℤ) ≠ requiredBits t) .weakCurve
  checkGuard (¬(0 ≤ a ∧ a < p)) .validation
  checkGuard (¬(0 ≤ b ∧ b < p)) .validation
  checkGuard ((4 * a * a * a + 27 * b * b) % p = 0) .validation
  let ec : EC := ⟨p, a, b, G, n, h, t⟩
  let onC ← ec.isOnCurve G
  checkGuard (¬onC) .validation
  checkGuard (n < 2 ∨ (n > 2 ∧ ¬2 ^ (n - 1).toNat % n = 1)) .validation
  checkGuard (all_checks ∧
    ¬(p + 1 - intSqrt (4 * p) ≤ n ∧ n ≤ p + 1 + intSqrt (4 * p))) .validation
  checkGuard (h ≠ (p + 1 + intSqrt (4 * p)) / n) .validation
  checkGuard (all_checks ∧ t ≠ 0 ∧ h > 2 ^ (t / 8).toNat) .validation
  let Inf ← checkOrder ec
  checkGuard (Inf.y ≠ 0) .validation
  checkGuard (n = p) .weakCurve
  checkGuard (all_checks ∧
    ((List.range' 1 99).any fun i => decide (p ^ i % n = 1)) = true) .weakCurve
  return ec

/-!
Bridge to the mathematical model: the curve over `ZMod q` and representation
predicates tying the integer-tuple computations of the code to
`WeierstrassCurve.Affine.Point`.
-/

section Casts

variable {q : ℕ} [Fact q.Prime]

theorem castInt_emod (x : ℤ) : ((x % (q : ℤ) : ℤ) : ZMod q) = (x : ZMod q) :=
  ZMod.intCast_mod x q

theorem emod_eq_emod_iff_cast {x y : ℤ} :
    x % (q : ℤ) = y % (q : ℤ) ↔ (x : ZMod q) = (y : ZMod q) :=
  (ZMod.intCast_eq_intCast_iff' x y q).symm

theorem emod_range (x : ℤ) : 0 ≤ x % (q : ℤ) ∧ x % (q : ℤ) < q := by
  have hq : (0 : ℤ) < q := by exact_mod_cast (Fact.out : q.Prime).pos
  exact ⟨Int.emod_nonneg x (by omega), Int.emod_lt_of_pos x hq⟩

theorem int_eq_zero_of_cast_eq_zero {z : ℤ} (h0 : 0 ≤ z) (h1 : z < (q : ℤ))
    (h : (z : ZMod q) = 0) : z = 0 := by
  rcases (ZMod.intCast_zmod_eq_zero_iff_dvd z q).mp h with ⟨c, rfl⟩
  have hq : (0 : ℤ) < q := by exact_mod_cast (Fact.out : q.Prime).pos
  have hc1 : c < 1 := lt_of_mul_lt_mul_left (by linarith) (le_of_lt hq)
  have hc0 : 0 ≤ c := le_of_mul_le_mul_left (by linarith) hq
  have hc : c = 0 := by omega
  simp [hc]

theorem int_eq_of_cast_eq {x y : ℤ} (hx0 : 0 ≤ x) (hx1 : x < (q : ℤ))
    (hy0 : 0 ≤ y) (hy1 : y < (q : ℤ)) (h : (x : ZMod q) = (y : ZMod q)) : x = y := by
  have hxy := emod_eq_emod_iff_cast.mpr h
  rwa [Int.emod_eq_of_lt hx0 hx1, Int.emod_eq_of_lt hy0 hy1] at hxy

theorem cast_emod_ne_zero_iff {z : ℤ} :
    ((z % (q : ℤ) : ℤ) : ZMod q) ≠ 0 ↔ z % (q : ℤ) ≠ 0 := by
  constructor
  · intro h h0
    exact h (by rw [h0]; simp)
  · intro h h0
    exact h (int_eq_zero_of_cast_eq_zero (emod_range z).1 (emod_range z).2 h0)

/-- The value in `[0, q)` of an element of `ZMod q`, as an integer: the unique
reduced integer mapping onto it. -/
theorem int_eq_val_of_cast_eq {z : ℤ} {c : ZMod q} (h0 : 0 ≤ z) (h1 : z < (q : ℤ))
    (h : (z : ZMod q) = c) : z = (c.val : ℤ) := by
  have hne : NeZero q := ⟨(Fact.out : q.Prime).ne_zero⟩
  have := @ZMod.val_intCast q z hne
  rw [h, Int.emod_eq_of_lt h0 h1] at this
  omega

theorem mod_inv_ok {a : ℤ} (ha : (a : ZMod q) ≠ 0) :
    ∃ w, mod_inv a (q : ℤ) = .ok w ∧ (a : ZMod q) * (w : ZMod q) = 1 ∧
      0 ≤ w ∧ w < (q : ℤ) := by
  have hq : q.Prime := Fact.out
  haveI : NeZero q := ⟨hq.ne_zero⟩
  have hq1 : 1 < q := hq.one_lt
  have hcast : ∀ i : ℕ, a * (i : ℤ) % (q : ℤ) = 1 % (q : ℤ) ↔
      (a : ZMod q) * ((i : ℤ) : ZMod q) = 1 := by
    intro i
    rw [emod_eq_emod_iff_cast]
    push_cast
    exact Iff.rfl
  have hmem : ((a : ZMod q)⁻¹).val ∈ List.range ((q : ℤ)).toNat := by
    rw [List.mem_range]
    have := ZMod.val_lt ((a : ZMod q)⁻¹)
    omega
  have hpred : (fun i : ℕ => decide (a * (i : ℤ) % (q : ℤ) = 1 % (q : ℤ)))
      ((a : ZMod q)⁻¹).val = true := by
    rw [decide_eq_true_iff, hcast]
    push_cast [ZMod.natCast_val, ZMod.cast_id]
    exact mul_inv_cancel₀ ha
  have hsome : ((List.range ((q : ℤ)).toNat).find?
      (fun i : ℕ => decide (a * (i : ℤ) % (q : ℤ) = 1 % (q : ℤ)))).isSome :=
    List.find?_isSome.mpr ⟨_, hmem, hpred⟩
  obtain ⟨i, hfind⟩ := Option.isSome_iff_exists.mp hsome
  have hit := List.find?_some hfind
  have himem := List.mem_of_find?_eq_some hfind
  rw [List.mem_range] at himem
  refine ⟨(i : ℤ), ?_, ?_, by positivity, by omega⟩
  · unfold mod_inv
    rw [hfind]
  · exact (hcast i).mp (of_decide_eq_true hit)

end Casts

section Curve

/-- The specification-side short Weierstrass curve `y² = x³ + a·x + b` over `ZMod q`. -/
def curveW (q : ℕ) (a b : ℤ) : WeierstrassCurve.Affine (ZMod q) :=
  { a₁ := 0, a₂ := 0, a₃ := 0, a₄ := (a : ZMod q), a₆ := (b : ZMod q) }

/-- The curve has no finite point with `y = 0`: the cubic `x³ + a·x + b` has no root
mod `q`.  Equivalently, the group of points has no element of order two. -/
def NoTwoTorsion (q : ℕ) (a b : ℤ) : Prop :=
  ∀ x : ZMod q, x ^ 3 + (a : ZMod q) * x + (b : ZMod q) ≠ 0

instance (q : ℕ) [NeZero q] (a b : ℤ) : Decidable (NoTwoTorsion q a b) := by
  unfold NoTwoTorsion; infer_instance

variable {q : ℕ} [Fact q.Prime] {a b : ℤ}

theorem curveW_equation {x y : ZMod q} :
    (curveW q a b).Equation x y ↔ y ^ 2 = x ^ 3 + (a : ZMod q) * x + (b : ZMod q) := by
  rw [WeierstrassCurve.Affine.equation_iff]
  simp only [curveW]
  constructor <;> intro h <;> linear_combination h

theorem curveW_Δ : (curveW q a b).Δ =
    -16 * (4 * (a : ZMod q) ^ 3 + 27 * (b : ZMod q) ^ 2) := by
  unfold WeierstrassCurve.Δ WeierstrassCurve.b₂ WeierstrassCurve.b₄
    WeierstrassCurve.b₆ WeierstrassCurve.b₈
  simp only [curveW]
  ring

theorem curveW_nonsingular (hq2 : q ≠ 2)
    (hdisc : ((4 * a ^ 3 + 27 * b ^ 2 : ℤ) : ZMod q) ≠ 0) {x y : ZMod q}
    (h : (curveW q a b).Equation x y) : (curveW q a b).Nonsingular x y := by
  refine WeierstrassCurve.Affine.nonsingular_of_Δ_ne_zero _ h ?_
  rw [curveW_Δ]
  have h2 : (2 : ZMod q) ≠ 0 := by
    intro h0
    have := (ZMod.natCast_zmod_eq_zero_iff_dvd 2 q).mp (by exact_mod_cast h0)
    exact hq2 ((Nat.prime_dvd_prime_iff_eq Fact.out Nat.prime_two).mp this)
  have h16 : (16 : ZMod q) ≠ 0 := by
    have : (16 : ZMod q) = 2 ^ 4 := by norm_num
    rw [this]
    exact pow_ne_zero 4 h2
  intro h0
  apply hdisc
  push_cast
  have := mul_eq_zero.mp h0
  rcases this with h' | h'
  · exact absurd (neg_eq_zero.mp h') h16
  · exact h'

theorem curveW_negY {x y : ZMod q} : (curveW q a b).negY x y = -y := by
  simp [WeierstrassCurve.Affine.negY, curveW]

theorem curveW_addX {x1 x2 L : ZMod q} :
    (curveW q a b).addX x1 x2 L = L ^ 2 - x1 - x2 := by
  simp [WeierstrassCurve.Affine.addX, curveW]

theorem curveW_addY {x1 x2 y1 L : ZMod q} :
    (curveW q a b).addY x1 x2 y1 L = L * (x1 - (L ^ 2 - x1 - x2)) - y1 := by
  simp only [WeierstrassCurve.Affine.addY, WeierstrassCurve.Affine.negAddY,
    WeierstrassCurve.Affine.negY, curveW_addX]
  simp [curveW]
  ring

theorem curveW_slope_of_X_ne {x1 x2 y1 y2 : ZMod q} (hx : x1 ≠ x2) :
    (curveW q a b).slope x1 x2 y1 y2 = (y1 - y2) / (x1 - x2) :=
  WeierstrassCurve.Affine.slope_of_X_ne hx

theorem curveW_slope_of_Y_ne {x1 x2 y1 y2 : ZMod q} (hx : x1 = x2)
    (hy : y1 ≠ -y2) : (curveW q a b).slope x1 x2 y1 y2 =
      (3 * x1 ^ 2 + (a : ZMod q)) / (2 * y1) := by
  rw [WeierstrassCurve.Affine.slope_of_Y_ne hx (by rwa [curveW_negY])]
  rw [curveW_negY]
  have h1 : y1 - -y1 = 2 * y1 := by ring
  rw [h1]
  congr 1
  simp [curveW]

end Curve

section Reps

/-- The Jacobian triple `J` represents the spec-level point `P`: the code's exact
test `J.z = 0` captures infinity, and otherwise the affine coordinates of `P` are
`J.x / J.z²` and `J.y / J.z³` in `ZMod q`. -/
def JRep (q : ℕ) (ec : EC) : JacPoint → (curveW q ec.a ec.b).Point → Prop
  | J, .zero => J.z = 0
  | J, @WeierstrassCurve.Affine.Point.some _ _ _ x y _ =>
      (J.z : ZMod q) ≠ 0 ∧ (J.x : ZMod q) = x * (J.z : ZMod q) ^ 2 ∧
        (J.y : ZMod q) = y * (J.z : ZMod q) ^ 3

/-- The integer pair `Q` represents the spec-level point `P` with reduced
coordinates: `y = 0` encodes infinity, and a finite point carries `0 < y < q`
(as `isOnCurve` demands) together with the coordinates of `P`. -/
def ARep (q : ℕ) (ec : EC) : Point → (curveW q ec.a ec.b).Point → Prop
  | Q, .zero => Q.y = 0
  | Q, @WeierstrassCurve.Affine.Point.some _ _ _ x y _ =>
      0 < Q.y ∧ Q.y < (q : ℤ) ∧ (Q.x : ZMod q) = x ∧ (Q.y : ZMod q) = y

/-- The reduced integer encoding of a spec-level point, with infinity encoded
canonically as `(1, 0)`. -/
def encodePoint {q : ℕ} {a b : ℤ} : (curveW q a b).Point → Point
  | .zero => ⟨1, 0⟩
  | @WeierstrassCurve.Affine.Point.some _ _ _ x y _ => ⟨(x.val : ℤ), (y.val : ℤ)⟩

/-- Validity of the curve state for the bridge: an odd prime field size matching
`ec.p`, and a non-vanishing discriminant (both established by `EC.__init__`). -/
structure GoodEC (ec : EC) (q : ℕ) : Prop where
  hp : ec.p = (q : ℤ)
  hq2 : q ≠ 2
  hdisc : ((4 * ec.a ^ 3 + 27 * ec.b ^ 2 : ℤ) : ZMod q) ≠ 0

end Reps

section BridgeLemmas

variable {q : ℕ} [Fact q.Prime] {ec : EC}

theorem zmod_two_ne_zero (hq2 : q ≠ 2) : (2 : ZMod q) ≠ 0 := by
  intro h0
  have : ((2 : ℕ) : ZMod q) = 0 := by exact_mod_cast h0
  have := (ZMod.natCast_zmod_eq_zero_iff_dvd 2 q).mp this
  exact hq2 ((Nat.prime_dvd_prime_iff_eq Fact.out Nat.prime_two).mp this)

theorem isOnCurve_ok_true_iff (hp : ec.p = (q : ℤ)) {Q : Point} :
    ec.isOnCurve Q = .ok true ↔ Q.y = 0 ∨ (0 < Q.y ∧ Q.y < (q : ℤ) ∧
      ((Q.y : ZMod q)) ^ 2 = (Q.x : ZMod q) ^ 3 + (ec.a : ZMod q) * (Q.x : ZMod q) + ec.b) := by
  unfold EC.isOnCurve EC.isOnCurveL EC.y2
  rw [hp]
  by_cases hy0 : Q.y = 0
  · simp [hy0]
  · by_cases hyr : 0 < Q.y ∧ Q.y < (q : ℤ)
    · have heq : ((Q.x * Q.x + ec.a) * Q.x + ec.b) % (q : ℤ) = Q.y * Q.y % (q : ℤ) ↔
          ((Q.y : ZMod q)) ^ 2 = (Q.x : ZMod q) ^ 3 + (ec.a : ZMod q) * (Q.x : ZMod q) + ec.b := by
        rw [emod_eq_emod_iff_cast]
        push_cast
        constructor <;> intro h <;> linear_combination -h
      simp [hy0, hyr, heq]
    · simp only [hy0, if_false, hyr, not_false_iff, if_true]
      constructor
      · intro h
        exact absurd h (by simp)
      · intro h
        rcases h with h | ⟨h1, h2, -⟩
        · exact h.elim
        · exact absurd ⟨h1, h2⟩ hyr

theorem requireOnCurve_ok (h : ec.isOnCurve Q = .ok true) :
    ec.requireOnCurve Q = .ok () := by
  unfold EC.requireOnCurve
  rw [h]
  rfl

theorem ARep_onCurve (hg : GoodEC ec q) {Q : Point} {P : (curveW q ec.a ec.b).Point}
    (h : ARep q ec Q P) : ec.isOnCurve Q = .ok true := by
  rw [isOnCurve_ok_true_iff hg.hp]
  cases P with
  | zero => exact Or.inl h
  | some hns =>
    obtain ⟨h1, h2, h3, h4⟩ := h
    refine Or.inr ⟨h1, h2, ?_⟩
    rw [h3, h4]
    exact curveW_equation.mp hns.1

theorem ARep_exists (hg : GoodEC ec q) {Q : Point} (h : ec.isOnCurve Q = .ok true) :
    ∃ P, ARep q ec Q P := by
  rw [isOnCurve_ok_true_iff hg.hp] at h
  rcases h with h | ⟨h1, h2, h3⟩
  · exact ⟨.zero, h⟩
  · have heq : (curveW q ec.a ec.b).Equation (Q.x : ZMod q) (Q.y : ZMod q) :=
      curveW_equation.mpr h3
    exact ⟨.some (curveW_nonsingular hg.hq2 hg.hdisc heq), h1, h2, rfl, rfl⟩

theorem ARep_jac {Q : Point} {P : (curveW q ec.a ec.b).Point}
    (h : ARep q ec Q P) : JRep q ec (jac_from_aff Q) P := by
  cases P with
  | zero =>
    simp only [ARep] at h
    simp [JRep, jac_from_aff, h]
  | some hns =>
    obtain ⟨h1, h2, h3, h4⟩ := h
    have hy0 : Q.y ≠ 0 := by omega
    simp only [jac_from_aff, hy0, if_false, JRep]
    refine ⟨by norm_num, by simpa using h3, by simpa using h4⟩

theorem no_two_torsion_y_ne {x y : ZMod q} (hT : NoTwoTorsion q ec.a ec.b)
    (hns : (curveW q ec.a ec.b).Nonsingular x y) : y ≠ 0 := by
  intro h0
  have heq := curveW_equation.mp hns.1
  rw [h0] at heq
  exact hT x (by linear_combination -heq)

theorem encode_ARep (hT : NoTwoTorsion q ec.a ec.b) (P : (curveW q ec.a ec.b).Point) :
    ARep q ec (encodePoint P) P := by
  have hq0 : NeZero q := ⟨(Fact.out : q.Prime).ne_zero⟩
  cases P with
  | zero => simp [encodePoint, ARep]
  | some hns =>
    rename_i x y
    have hy : y ≠ 0 := no_two_torsion_y_ne hT hns
    have hval : y.val ≠ 0 := fun h0 => hy ((ZMod.val_eq_zero y).mp h0)
    simp only [ARep, encodePoint]
    refine ⟨by exact_mod_cast Nat.pos_of_ne_zero hval, by exact_mod_cast y.val_lt, ?_, ?_⟩
    · rw [Int.cast_natCast, ZMod.natCast_val, ZMod.cast_id]
    · rw [Int.cast_natCast, ZMod.natCast_val, ZMod.cast_id]

theorem affine_from_jac_rep (hg : GoodEC ec q) {J : JacPoint}
    {P : (curveW q ec.a ec.b).Point} (h : JRep q ec J P) :
    ec.affine_from_jac J = .ok (encodePoint P) := by
  cases P with
  | zero =>
    simp only [JRep] at h
    unfold EC.affine_from_jac
    rw [h]
    rfl
  | some hns =>
    rename_i x y
    obtain ⟨hz, hx, hy⟩ := h
    have hz0 : J.z ≠ 0 := fun h0 => hz (by rw [h0]; simp)
    have hz2 : ((J.z * J.z : ℤ) : ZMod q) ≠ 0 := by push_cast; exact mul_ne_zero hz hz
    have hz3 : ((J.z * J.z * J.z : ℤ) : ZMod q) ≠ 0 := by
      push_cast; exact mul_ne_zero (mul_ne_zero hz hz) hz
    obtain ⟨w2, hw2, hw2m, hw2r0, hw2r1⟩ := @mod_inv_ok q _ _ hz2
    obtain ⟨w3, hw3, hw3m, hw3r0, hw3r1⟩ := @mod_inv_ok q _ _ hz3
    have hxe : J.x * w2 % (q : ℤ) = (x.val : ℤ) := by
      apply int_eq_val_of_cast_eq (emod_range _).1 (emod_range _).2
      rw [castInt_emod]
      push_cast
      push_cast at hw2m
      rw [hx]
      calc x * (J.z : ZMod q) ^ 2 * (w2 : ZMod q)
          = x * ((J.z : ZMod q) * (J.z : ZMod q) * (w2 : ZMod q)) := by ring
        _ = x := by rw [hw2m, mul_one]
    have hye : J.y * w3 % (q : ℤ) = (y.val : ℤ) := by
      apply int_eq_val_of_cast_eq (emod_range _).1 (emod_range _).2
      rw [castInt_emod]
      push_cast
      push_cast at hw3m
      rw [hy]
      calc y * (J.z : ZMod q) ^ 3 * (w3 : ZMod q)
          = y * ((J.z : ZMod q) * (J.z : ZMod q) * (J.z : ZMod q) * (w3 : ZMod q)) := by ring
        _ = y := by rw [hw3m, mul_one]
    simp only [EC.affine_from_jac, hz0, if_false]
    rw [hg.hp, hw2, hw3]
    show Except.ok (⟨J.x * w2 % (q : ℤ), J.y * w3 % (q : ℤ)⟩ : Point) = _
    rw [hxe, hye]
    rfl

/-- Correctness of `_addJacobian`: on representatives of spec-level points it
computes the group law of the curve. -/
theorem addJacobian_rep (hg : GoodEC ec q) {J1 J2 : JacPoint}
    {P1 P2 : (curveW q ec.a ec.b).Point} (h1 : JRep q ec J1 P1) (h2 : JRep q ec J2 P2) :
    JRep q ec (ec.addJacobian J1 J2) (P1 + P2) := by
  by_cases hz1 : J1.z = 0
  · have hP1 : P1 = 0 := by
      cases P1 with
      | zero => rfl
      | some hns => exact absurd (by rw [hz1]; simp : ((J1.z : ZMod q) = 0)) h1.1
    subst hP1
    rw [zero_add]
    simpa [EC.addJacobian, hz1] using h2
  · by_cases hz2 : J2.z = 0
    · have hP2 : P2 = 0 := by
        cases P2 with
        | zero => rfl
        | some hns => exact absurd (by rw [hz2]; simp : ((J2.z : ZMod q) = 0)) h2.1
      subst hP2
      rw [add_zero]
      simpa [EC.addJacobian, hz1, hz2] using h1
    · cases P1 with
      | zero => exact absurd h1 hz1
      | some hns1 =>
        rename_i x1 y1
        cases P2 with
        | zero => exact absurd h2 hz2
        | some hns2 =>
          rename_i x2 y2
          obtain ⟨hz1c, hx1, hy1⟩ := h1
          obtain ⟨hz2c, hx2, hy2⟩ := h2
          have h2ne : (2 : ZMod q) ≠ 0 := zmod_two_ne_zero hg.hq2
          have hcx : (J1.x * (J2.z * J2.z) % ec.p = J2.x * (J1.z * J1.z) % ec.p) ↔
              x1 = x2 := by
            rw [hg.hp, emod_eq_emod_iff_cast]
            push_cast
            rw [hx1, hx2]
            constructor
            · intro h
              have hf : (x1 - x2) * ((J1.z : ZMod q) ^ 2 * (J2.z : ZMod q) ^ 2) = 0 := by
                linear_combination h
              rcases mul_eq_zero.mp hf with h' | h'
              · exact sub_eq_zero.mp h'
              · exact absurd h' (mul_ne_zero (pow_ne_zero 2 hz1c) (pow_ne_zero 2 hz2c))
            · intro h
              rw [h]
              ring
          have hcy : (J1.y * (J2.z * J2.z * J2.z) % ec.p =
              J2.y * (J1.z * J1.z * J1.z) % ec.p) ↔ y1 = y2 := by
            rw [hg.hp, emod_eq_emod_iff_cast]
            push_cast
            rw [hy1, hy2]
            constructor
            · intro h
              have hf : (y1 - y2) * ((J1.z : ZMod q) ^ 3 * (J2.z : ZMod q) ^ 3) = 0 := by
                linear_combination h
              rcases mul_eq_zero.mp hf with h' | h'
              · exact sub_eq_zero.mp h'
              · exact absurd h' (mul_ne_zero (pow_ne_zero 3 hz1c) (pow_ne_zero 3 hz2c))
            · intro h
              rw [h]
              ring
          simp only [EC.addJacobian, hz1, hz2, if_false]
          by_cases hx : x1 = x2
          · rw [if_pos (hcx.mpr hx)]
            by_cases hy : y1 = y2
            · rw [if_pos (hcy.mpr hy)]
              subst hx
              subst hy
              by_cases hy0 : y1 = 0
              · have hadd : WeierstrassCurve.Affine.Point.some hns1 +
                    WeierstrassCurve.Affine.Point.some hns2 = 0 :=
                  WeierstrassCurve.Affine.Point.add_of_Y_eq rfl
                    (by rw [curveW_negY, hy0, neg_zero])
                rw [hadd]
                show 2 * J1.y * J1.z % ec.p = 0
                rw [hg.hp]
                apply int_eq_zero_of_cast_eq_zero (emod_range _).1 (emod_range _).2
                rw [castInt_emod]
                push_cast
                rw [hy1, hy0]
                ring
              · have hyne : y1 ≠ (curveW q ec.a ec.b).negY x1 y1 := by
                  rw [curveW_negY]
                  intro hc
                  apply hy0
                  have : 2 * y1 = 0 := by linear_combination hc
                  rcases mul_eq_zero.mp this with h' | h'
                  · exact absurd h' h2ne
                  · exact h'
                rw [WeierstrassCurve.Affine.Point.add_of_Y_ne hyne]
                have hL : (curveW q ec.a ec.b).slope x1 x1 y1 y1 =
                    (3 * x1 ^ 2 + (ec.a : ZMod q)) / (2 * y1) :=
                  curveW_slope_of_Y_ne rfl (fun hc => hy0 (by
                    have : 2 * y1 = 0 := by linear_combination hc
                    rcases mul_eq_zero.mp this with h' | h'
                    · exact absurd h' h2ne
                    · exact h'))
                simp only [JRep, curveW_addX, curveW_addY, hL]
                refine ⟨?_, ?_, ?_⟩
                · rw [hg.hp]
                  push_cast [castInt_emod]
                  rw [hy1]
                  intro hc
                  rcases mul_eq_zero.mp hc with hc1 | hc1
                  · rcases mul_eq_zero.mp hc1 with hc2 | hc2
                    · exact h2ne hc2
                    · rcases mul_eq_zero.mp hc2 with hc3 | hc3
                      · exact hy0 hc3
                      · exact pow_ne_zero 3 hz1c hc3
                  · exact hz1c hc1
                · rw [hg.hp]
                  push_cast [castInt_emod]
                  rw [hx1, hy1]
                  field_simp
                  ring
                · rw [hg.hp]
                  push_cast [castInt_emod]
                  rw [hx1, hy1]
                  field_simp
                  ring
            · rw [if_neg (fun hc => hy (hcy.mp hc))]
              have hyy : y1 = (curveW q ec.a ec.b).negY x2 y2 := by
                rcases WeierstrassCurve.Affine.Y_eq_of_X_eq hns1.1 hns2.1 hx with h' | h'
                · exact absurd h' hy
                · exact h'
              rw [WeierstrassCurve.Affine.Point.add_of_Y_eq hx hyy]
              rfl
          · rw [if_neg (fun hc => hx (hcx.mp hc))]
            rw [WeierstrassCurve.Affine.Point.add_of_X_ne hx]
            have hL : (curveW q ec.a ec.b).slope x1 x2 y1 y2 = (y1 - y2) / (x1 - x2) :=
              curveW_slope_of_X_ne hx
            have hxs : x1 - x2 ≠ 0 := sub_ne_zero.mpr hx
            simp only [JRep, curveW_addX, curveW_addY, hL]
            refine ⟨?_, ?_, ?_⟩
            · rw [hg.hp]
              push_cast [castInt_emod]
              rw [hx1, hx2]
              intro hc
              have hf : (x2 - x1) * ((J1.z : ZMod q) ^ 3 * (J2.z : ZMod q) ^ 3) = 0 := by
                linear_combination hc
              rcases mul_eq_zero.mp hf with h' | h'
              · exact hx (sub_eq_zero.mp h').symm
              · exact absurd h' (mul_ne_zero (pow_ne_zero 3 hz1c) (pow_ne_zero 3 hz2c))
            · rw [hg.hp]
              push_cast [castInt_emod]
              rw [hx1, hx2, hy1, hy2]
              field_simp
              ring
            · rw [hg.hp]
              push_cast [castInt_emod]
              rw [hx1, hx2, hy1, hy2]
              field_simp
              ring

theorem nsmul_self_add {M : Type} [AddCommGroup M] (m : ℕ) (A : M) :
    m • (A + A) = (2 * m) • A := by
  rw [smul_add, two_mul, add_nsmul]

theorem size_filter_aux (m : ℕ) : ∀ N : ℕ, m.size ≤ N →
    ((List.range N).filter fun k : ℕ => decide (2 ^ k ≤ m)).length = m.size := by
  intro N
  induction N with
  | zero =>
    intro h
    simp only [List.range_zero, List.filter_nil, List.length_nil]
    omega
  | succ N ih =>
    intro h
    rw [List.range_succ, List.filter_append, List.length_append]
    rcases Nat.lt_or_ge N m.size with hlt | hge
    · have hall : ∀ k ∈ List.range N, (fun k : ℕ => decide (2 ^ k ≤ m)) k = true := by
        intro k hk
        rw [List.mem_range] at hk
        exact decide_eq_true (Nat.lt_size.mp (by omega))
      have hN : decide (2 ^ N ≤ m) = true := decide_eq_true (Nat.lt_size.mp hlt)
      rw [List.filter_eq_self.mpr hall, List.length_range]
      simp only [List.filter_cons, hN, if_pos, List.filter_nil, List.length_cons,
        List.length_nil]
      omega
    · have hN : decide (2 ^ N ≤ m) = false := by
        rw [decide_eq_false_iff_not]
        have := Nat.size_le.mp hge
        omega
      rw [ih hge]
      simp [List.filter_cons, hN]

/-- The search definition of `bitLength` agrees with `Nat.size`. -/
theorem bitLength_eq_size (n : ℤ) : bitLength n = n.natAbs.size := by
  unfold bitLength
  refine size_filter_aux n.natAbs (n.natAbs + 1) ?_
  refine Nat.size_le.mpr (lt_of_lt_of_le (Nat.lt_two_pow _) ?_)
  exact Nat.pow_le_pow_right (by norm_num) (Nat.le_succ _)

/-- Loop invariant of `_pointMultJacobian`: LSB-first double-and-add accumulates
`PR + n • PQ` once the fuel covers the scalar. -/
theorem pointMultLoop_rep (hg : GoodEC ec q) : ∀ (fuel : ℕ) (n : ℤ), n.toNat ≤ fuel →
    ∀ {R Q : JacPoint} {PR PQ : (curveW q ec.a ec.b).Point},
    JRep q ec R PR → JRep q ec Q PQ →
    JRep q ec (pointMultLoop ec fuel n R Q) (PR + n.toNat • PQ) := by
  intro fuel
  induction fuel with
  | zero =>
    intro n hk R Q PR PQ hR hQ
    have hn0 : n.toNat = 0 := by omega
    rw [hn0, zero_nsmul, add_zero]
    exact hR
  | succ fuel ih =>
    intro n hk R Q PR PQ hR hQ
    show JRep q ec
      (if 0 < n then
        pointMultLoop ec fuel (n / 2) (if n % 2 = 1 then ec.addJacobian R Q else R)
          (ec.addJacobian Q Q)
      else R) _
    by_cases hn : 0 < n
    · rw [if_pos hn]
      have hR2 : JRep q ec (if n % 2 = 1 then ec.addJacobian R Q else R)
          (if n % 2 = 1 then PR + PQ else PR) := by
        split_ifs
        · exact addJacobian_rep hg hR hQ
        · exact hR
      have hQ2 : JRep q ec (ec.addJacobian Q Q) (PQ + PQ) := addJacobian_rep hg hQ hQ
      have hrec := ih (n / 2) (by omega) hR2 hQ2
      have harith : (if n % 2 = 1 then PR + PQ else PR) + (n / 2).toNat • (PQ + PQ) =
          PR + n.toNat • PQ := by
        rw [nsmul_self_add]
        by_cases hpar : n % 2 = 1
        · have hsplit : n.toNat = 2 * (n / 2).toNat + 1 := by omega
          rw [if_pos hpar, hsplit, add_nsmul, one_nsmul]
          abel
        · have hsplit : n.toNat = 2 * (n / 2).toNat := by omega
          rw [if_neg hpar, hsplit]
      rwa [harith] at hrec
    · rw [if_neg hn]
      have hn0 : n.toNat = 0 := by omega
      rw [hn0, zero_nsmul, add_zero]
      exact hR

/-- `_pointMultJacobian` computes the scalar multiple of the represented point. -/
theorem pointMultJacobian_rep (hg : GoodEC ec q) {n : ℤ} {Q : JacPoint}
    {PQ : (curveW q ec.a ec.b).Point} (hQ : JRep q ec Q PQ) :
    JRep q ec (pointMultJacobian ec n Q) (n.toNat • PQ) := by
  unfold pointMultJacobian
  split_ifs with hz
  · have hPQ : PQ = 0 := by
      cases PQ with
      | zero => rfl
      | some hns => exact absurd (by rw [hz]; simp : ((Q.z : ZMod q) = 0)) hQ.1
    subst hPQ
    rw [nsmul_zero]
    rfl
  · have h0 : JRep q ec (⟨1, 1, 0⟩ : JacPoint) (0 : (curveW q ec.a ec.b).Point) := rfl
    have := pointMultLoop_rep hg n.toNat n le_rfl h0 hQ
    rwa [zero_add] at this

/-- `pointMult` on a represented on-curve point returns the reduced encoding of
the scalar multiple (the scalar is first reduced mod `n`). -/
theorem pointMult_rep (hg : GoodEC ec q) {n : ℤ} {Q : Point}
    {PQ : (curveW q ec.a ec.b).Point} (hQ : ARep q ec Q PQ) :
    pointMult ec n Q = .ok (encodePoint ((n % ec.n).toNat • PQ)) := by
  unfold pointMult
  rw [requireOnCurve_ok (ARep_onCurve hg hQ)]
  show ec.affine_from_jac (pointMultJacobian ec (n % ec.n) (jac_from_aff Q)) = _
  exact affine_from_jac_rep hg (pointMultJacobian_rep hg (ARep_jac hQ))

/-- `EC.add` on represented on-curve points returns the reduced encoding of the
spec-level sum. -/
theorem add_rep (hg : GoodEC ec q) {Q R : Point} {P1 P2 : (curveW q ec.a ec.b).Point}
    (h1 : ARep q ec Q P1) (h2 : ARep q ec R P2) :
    ec.add Q R = .ok (encodePoint (P1 + P2)) := by
  unfold EC.add
  rw [requireOnCurve_ok (ARep_onCurve hg h1), requireOnCurve_ok (ARep_onCurve hg h2)]
  show ec.affine_from_jac (ec.addJacobian (jac_from_aff Q) (jac_from_aff R)) = _
  exact affine_from_jac_rep hg (addJacobian_rep hg (ARep_jac h1) (ARep_jac h2))

theorem pow_pred_smul_double {M : Type} [AddCommGroup M] (m : ℕ) (X : M) :
    2 ^ (m - 1) • (if 0 < m then X + X else X) = 2 ^ m • X := by
  cases m with
  | zero => simp
  | succ k =>
    rw [if_pos (Nat.succ_pos k), Nat.succ_sub_one, nsmul_self_add, ← pow_succ']

/-- Loop invariant of the Shamir double-and-add in `DblScalarMult`: starting from
accumulator `R` with `msb` bits left, the loop computes
`2^(msb-1) • PR + u • PQ + v • PP`. -/
theorem shamirLoop_rep (hg : GoodEC ec q) : ∀ (m : ℕ) (u v : ℤ) {R QJ PJ : JacPoint}
    {PR PQ PP : (curveW q ec.a ec.b).Point},
    0 ≤ u → u < 2 ^ m → 0 ≤ v → v < 2 ^ m →
    JRep q ec R PR → JRep q ec QJ PQ → JRep q ec PJ PP →
    JRep q ec (shamirLoop ec m u v R QJ PJ)
      (2 ^ (m - 1) • PR + (u.toNat • PQ + v.toNat • PP)) := by
  intro m
  induction m with
  | zero =>
    intro u v R QJ PJ PR PQ PP hu0 hu1 hv0 hv1 hR hQ hP
    have hu : u = 0 := by omega
    have hv : v = 0 := by omega
    subst hu
    subst hv
    simp only [shamirLoop, Int.toNat_zero, zero_nsmul, add_zero, Nat.zero_sub, pow_zero,
      one_nsmul]
    exact hR
  | succ m ih =>
    intro u v R QJ PJ PR PQ PP hu0 hu1 hv0 hv1 hR hQ hP
    have hp2 : (0 : ℤ) < 2 ^ m := by positivity
    have hp21 : (2 : ℤ) ^ (m + 1) = 2 * 2 ^ m := by ring
    have hci : ((2 ^ m : ℕ) : ℤ) = (2 : ℤ) ^ m := by push_cast; ring
    have hub : ∀ w : ℤ, 0 ≤ w → ((w / 2 ^ m ≠ 0) ↔ 2 ^ m ≤ w) := by
      intro w hw
      constructor
      · intro hne
        by_contra hlt
        push_neg at hlt
        exact hne (Int.ediv_eq_zero_of_lt hw hlt)
      · intro hle hc
        have h1 : 1 ≤ w / 2 ^ m := by
          rw [Int.le_ediv_iff_mul_le hp2]
          simpa using hle
        omega
    have hbl : ∀ w : ℤ, 2 ^ m ≤ w → w < 2 ^ (m + 1) → (2 : ℤ) ^ (bitLength w - 1) = 2 ^ m := by
      intro w hle hlt
      have hw0 : 0 ≤ w := le_trans (le_of_lt hp2) hle
      have hna : (w.natAbs : ℤ) = w := Int.natAbs_of_nonneg hw0
      have h1 : w.natAbs < 2 ^ (m + 1) := by
        have h1' : ((w.natAbs : ℕ) : ℤ) < ((2 ^ (m + 1) : ℕ) : ℤ) := by
          rw [hna]
          push_cast
          exact hlt
        exact_mod_cast h1'
      have h2 : 2 ^ m ≤ w.natAbs := by
        have h2' : ((2 ^ m : ℕ) : ℤ) ≤ ((w.natAbs : ℕ) : ℤ) := by rw [hna, hci]; exact hle
        exact_mod_cast h2'
      have hsz : w.natAbs.size = m + 1 :=
        le_antisymm (Nat.size_le.mpr h1) (Nat.lt_size.mpr h2)
      rw [bitLength_eq_size, hsz]
      simp
    simp only [shamirLoop]
    have hwnew : ∀ w : ℤ, 0 ≤ w → w < 2 ^ (m + 1) →
        (if w / 2 ^ m ≠ 0 then w - 2 ^ (bitLength w - 1) else w) =
          (if 2 ^ m ≤ w then w - 2 ^ m else w) := by
      intro w hw hlt
      by_cases hcond : 2 ^ m ≤ w
      · rw [if_pos ((hub w hw).mpr hcond), if_pos hcond, hbl w hcond hlt]
      · rw [if_neg (fun hc => hcond ((hub w hw).mp hc)), if_neg hcond]
    rw [hwnew u hu0 hu1, hwnew v hv0 hv1]
    by_cases hcu : 2 ^ m ≤ u
    · by_cases hcv : 2 ^ m ≤ v
      · rw [if_pos ((hub u hu0).mpr hcu), if_pos ((hub v hv0).mpr hcv), if_pos hcu,
          if_pos hcv]
        have hR3 : JRep q ec
            (if 0 < m then
              ec.addJacobian (ec.addJacobian (ec.addJacobian R QJ) PJ)
                (ec.addJacobian (ec.addJacobian R QJ) PJ)
            else ec.addJacobian (ec.addJacobian R QJ) PJ)
            (if 0 < m then (PR + PQ + PP) + (PR + PQ + PP) else PR + PQ + PP) := by
          have h2 := addJacobian_rep hg (addJacobian_rep hg hR hQ) hP
          by_cases hm : 0 < m
          · rw [if_pos hm, if_pos hm]
            exact addJacobian_rep hg h2 h2
          · rw [if_neg hm, if_neg hm]
            exact h2
        have hrec := ih (u - 2 ^ m) (v - 2 ^ m) (by linarith) (by linarith [hp21])
          (by linarith) (by linarith [hp21]) hR3 hQ hP
        have htu : u.toNat = (u - 2 ^ m).toNat + 2 ^ m := by omega
        have htv : v.toNat = (v - 2 ^ m).toNat + 2 ^ m := by omega
        have heq : 2 ^ (m + 1 - 1) • PR + (u.toNat • PQ + v.toNat • PP) =
            2 ^ (m - 1) • (if 0 < m then (PR + PQ + PP) + (PR + PQ + PP)
              else PR + PQ + PP) +
              ((u - 2 ^ m).toNat • PQ + (v - 2 ^ m).toNat • PP) := by
          rw [pow_pred_smul_double, Nat.succ_sub_one, htu, htv, add_nsmul, add_nsmul,
            nsmul_add, nsmul_add]
          abel
        rw [heq]
        exact hrec
      · rw [if_pos ((hub u hu0).mpr hcu), if_neg (fun hc => hcv ((hub v hv0).mp hc)),
          if_pos hcu, if_neg hcv]
        have hR3 : JRep q ec
            (if 0 < m then
              ec.addJacobian (ec.addJacobian R QJ) (ec.addJacobian R QJ)
            else ec.addJacobian R QJ)
            (if 0 < m then (PR + PQ) + (PR + PQ) else PR + PQ) := by
          have h2 := addJacobian_rep hg hR hQ
          by_cases hm : 0 < m
          · rw [if_pos hm, if_pos hm]
            exact addJacobian_rep hg h2 h2
          · rw [if_neg hm, if_neg hm]
            exact h2
        have hrec := ih (u - 2 ^ m) v (by linarith) (by linarith [hp21]) hv0
          (by linarith [not_le.mp hcv]) hR3 hQ hP
        have htu : u.toNat = (u - 2 ^ m).toNat + 2 ^ m := by omega
        have heq : 2 ^ (m + 1 - 1) • PR + (u.toNat • PQ + v.toNat • PP) =
            2 ^ (m - 1) • (if 0 < m then (PR + PQ) + (PR + PQ) else PR + PQ) +
              ((u - 2 ^ m).toNat • PQ + v.toNat • PP) := by
          rw [pow_pred_smul_double, Nat.succ_sub_one, htu, add_nsmul, nsmul_add]
          abel
        rw [heq]
        exact hrec
    · by_cases hcv : 2 ^ m ≤ v
      · rw [if_neg (fun hc => hcu ((hub u hu0).mp hc)), if_pos ((hub v hv0).mpr hcv),
          if_neg hcu, if_pos hcv]
        have hR3 : JRep q ec
            (if 0 < m then
              ec.addJacobian (ec.addJacobian R PJ) (ec.addJacobian R PJ)
            else ec.addJacobian R PJ)
            (if 0 < m then (PR + PP) + (PR + PP) else PR + PP) := by
          have h2 := addJacobian_rep hg hR hP
          by_cases hm : 0 < m
          · rw [if_pos hm, if_pos hm]
            exact addJacobian_rep hg h2 h2
          · rw [if_neg hm, if_neg hm]
            exact h2
        have hrec := ih u (v - 2 ^ m) hu0 (by linarith [not_le.mp hcu]) (by linarith)
          (by linarith [hp21]) hR3 hQ hP
        have htv : v.toNat = (v - 2 ^ m).toNat + 2 ^ m := by omega
        have heq : 2 ^ (m + 1 - 1) • PR + (u.toNat • PQ + v.toNat • PP) =
            2 ^ (m - 1) • (if 0 < m then (PR + PP) + (PR + PP) else PR + PP) +
              (u.toNat • PQ + (v - 2 ^ m).toNat • PP) := by
          rw [pow_pred_smul_double, Nat.succ_sub_one, htv, add_nsmul, nsmul_add]
          abel
        rw [heq]
        exact hrec
      · rw [if_neg (fun hc => hcu ((hub u hu0).mp hc)),
          if_neg (fun hc => hcv ((hub v hv0).mp hc)), if_neg hcu, if_neg hcv]
        have hR3 : JRep q ec (if 0 < m then ec.addJacobian R R else R)
            (if 0 < m then PR + PR else PR) := by
          by_cases hm : 0 < m
          · rw [if_pos hm, if_pos hm]
            exact addJacobian_rep hg hR hR
          · rw [if_neg hm, if_neg hm]
            exact hR
        have hrec := ih u v hu0 (by linarith [not_le.mp hcu]) hv0
          (by linarith [not_le.mp hcv]) hR3 hQ hP
        have heq : 2 ^ (m + 1 - 1) • PR + (u.toNat • PQ + v.toNat • PP) =
            2 ^ (m - 1) • (if 0 < m then PR + PR else PR) +
              (u.toNat • PQ + v.toNat • PP) := by
          rw [pow_pred_smul_double, Nat.succ_sub_one]
        rw [heq]
        exact hrec

theorem bitLength_lt_pow {w : ℤ} (hw : 0 ≤ w) {k : ℕ} (hk : bitLength w ≤ k) :
    w < 2 ^ k := by
  rw [bitLength_eq_size] at hk
  have h1 : w.natAbs < 2 ^ k := Nat.size_le.mp hk
  calc w = (w.natAbs : ℤ) := (Int.natAbs_of_nonneg hw).symm
    _ < ((2 ^ k : ℕ) : ℤ) := by exact_mod_cast h1
    _ = 2 ^ k := by push_cast; ring

omit [Fact q.Prime] in
theorem ARep_infinity {Q : Point} {P : (curveW q ec.a ec.b).Point}
    (h : ARep q ec Q P) (hy : Q.y = 0) : P = 0 := by
  cases P with
  | zero => rfl
  | some hns => exact absurd hy (ne_of_gt h.1)

/-- `DblScalarMult` on represented on-curve points returns the reduced encoding of
`u·Q + v·P`, both scalars being reduced mod `n` first. -/
theorem DblScalarMult_rep (hg : GoodEC ec q) {u v : ℤ} {Q P : Point}
    {PQ PP : (curveW q ec.a ec.b).Point} (hQ : ARep q ec Q PQ) (hP : ARep q ec P PP)
    (hn : 0 < ec.n) :
    DblScalarMult ec u Q v P =
      .ok (encodePoint ((u % ec.n).toNat • PQ + (v % ec.n).toNat • PP)) := by
  have hvrep : ec.affine_from_jac (pointMultJacobian ec (v % ec.n) (jac_from_aff P)) =
      .ok (encodePoint ((v % ec.n).toNat • PP)) :=
    affine_from_jac_rep hg (pointMultJacobian_rep hg (ARep_jac hP))
  have hurep : ec.affine_from_jac (pointMultJacobian ec (u % ec.n) (jac_from_aff Q)) =
      .ok (encodePoint ((u % ec.n).toNat • PQ)) :=
    affine_from_jac_rep hg (pointMultJacobian_rep hg (ARep_jac hQ))
  unfold DblScalarMult
  by_cases hu : u = 0
  · rw [if_pos hu]
    subst hu
    by_cases hv : v = 0
    · rw [if_pos hv]
      subst hv
      simp only [Int.zero_emod, Int.toNat_zero, zero_nsmul, add_zero]
      rfl
    · rw [if_neg hv, requireOnCurve_ok (ARep_onCurve hg hP)]
      show ec.affine_from_jac (pointMultJacobian ec (v % ec.n) (jac_from_aff P)) >>= pure = _
      rw [hvrep]
      show Except.ok (encodePoint ((v % ec.n).toNat • PP)) = _
      simp only [Int.zero_emod, Int.toNat_zero, zero_nsmul, zero_add]
  · rw [if_neg hu, requireOnCurve_ok (ARep_onCurve hg hQ)]
    by_cases hQy : Q.y = 0
    · rw [if_pos hQy, requireOnCurve_ok (ARep_onCurve hg hP)]
      show ec.affine_from_jac (pointMultJacobian ec (v % ec.n) (jac_from_aff P)) >>= pure = _
      rw [hvrep]
      show Except.ok (encodePoint ((v % ec.n).toNat • PP)) = _
      rw [ARep_infinity hQ hQy, nsmul_zero, zero_add]
    · rw [if_neg hQy]
      by_cases hv : v = 0
      · rw [if_pos hv]
        subst hv
        show ec.affine_from_jac (pointMultJacobian ec (u % ec.n) (jac_from_aff Q)) >>= pure = _
        rw [hurep]
        show Except.ok (encodePoint ((u % ec.n).toNat • PQ)) = _
        simp only [Int.zero_emod, Int.toNat_zero, zero_nsmul, add_zero]
      · rw [if_neg hv, requireOnCurve_ok (ARep_onCurve hg hP)]
        by_cases hPy : P.y = 0
        · rw [if_pos hPy]
          show ec.affine_from_jac (pointMultJacobian ec (u % ec.n) (jac_from_aff Q)) >>= pure = _
          rw [hurep]
          show Except.ok (encodePoint ((u % ec.n).toNat • PQ)) = _
          rw [ARep_infinity hP hPy, nsmul_zero, add_zero]
        · rw [if_neg hPy]
          have hu0 : 0 ≤ u % ec.n := Int.emod_nonneg u (ne_of_gt hn)
          have hv0 : 0 ≤ v % ec.n := Int.emod_nonneg v (ne_of_gt hn)
          have hub : u % ec.n <
              2 ^ max (bitLength (u % ec.n)) (bitLength (v % ec.n)) :=
            bitLength_lt_pow hu0 (le_max_left _ _)
          have hvb : v % ec.n <
              2 ^ max (bitLength (u % ec.n)) (bitLength (v % ec.n)) :=
            bitLength_lt_pow hv0 (le_max_right _ _)
          have h0 : JRep q ec (⟨1, 1, 0⟩ : JacPoint)
              (0 : (curveW q ec.a ec.b).Point) := rfl
          have hloop := shamirLoop_rep hg
            (max (bitLength (u % ec.n)) (bitLength (v % ec.n)))
            (u % ec.n) (v % ec.n) hu0 hub hv0 hvb h0 (ARep_jac hQ) (ARep_jac hP)
          rw [nsmul_zero, zero_add] at hloop
          have hfin := affine_from_jac_rep hg hloop
          show ec.affine_from_jac (shamirLoop ec
            (max (bitLength (u % ec.n)) (bitLength (v % ec.n)))
            (u % ec.n) (v % ec.n) ⟨1, 1, 0⟩ (jac_from_aff Q) (jac_from_aff P)) = _
          rw [hfin]

end BridgeLemmas

section Constructor

theorem errBind {α β : Type} (e : Err) (f : α → Except Err β) :
    (Except.error e >>= f) = Except.error e := rfl

theorem okBind {α β : Type} (a : α) (f : α → Except Err β) :
    (Except.ok a >>= f) = f a := rfl

theorem pureBind {α β : Type} (a : α) (f : α → Except Err β) :
    (pure a >>= f : Except Err β) = f a := rfl

theorem bind_ok_iff {α β : Type} {x : Except Err α} {f : α → Except Err β} {r : β} :
    (x >>= f) = .ok r ↔ ∃ a, x = .ok a ∧ f a = .ok r := by
  cases x with
  | error e => simp [errBind]
  | ok a => simp [okBind]

theorem checkGuard_ok_iff {c : Prop} [Decidable c] {e : Err} {u : Unit} :
    checkGuard c e = .ok u ↔ ¬c := by
  unfold checkGuard
  split_ifs with h <;> simp [h]

/-- Success of `EC.__init__` is exactly the conjunction of its checks. -/
theorem mkEC_ok_iff {p a b : ℤ} {G : Point} {n h t : ℤ} {ch : Bool} {ec : EC} :
    mkEC p a b G n h t ch = .ok ec ↔
      ec = ⟨p, a, b, G, n, h, t⟩ ∧
      ¬(p % 2 = 0) ∧
      2 ^ (p - 1).toNat % p = 1 ∧
      ¬(t ≠ 0 ∧ ch = true ∧
        ¬(t = 80 ∨ t = 96 ∨ t = 112 ∨ t = 128 ∨ t = 192 ∨ t = 256)) ∧
      ¬(t ≠ 0 ∧ ch = true ∧ (bitLength p : ℤ) ≠ requiredBits t) ∧
      (0 ≤ a ∧ a < p) ∧
      (0 ≤ b ∧ b < p) ∧
      ¬((4 * a * a * a + 27 * b * b) % p = 0) ∧
      (⟨p, a, b, G, n, h, t⟩ : EC).isOnCurve G = .ok true ∧
      ¬(n < 2 ∨ (n > 2 ∧ ¬2 ^ (n - 1).toNat % n = 1)) ∧
      ¬(ch = true ∧
        ¬(p + 1 - intSqrt (4 * p) ≤ n ∧ n ≤ p + 1 + intSqrt (4 * p))) ∧
      h = (p + 1 + intSqrt (4 * p)) / n ∧
      ¬(ch = true ∧ t ≠ 0 ∧ h > 2 ^ (t / 8).toNat) ∧
      (∃ I, checkOrder ⟨p, a, b, G, n, h, t⟩ = .ok I ∧ I.y = 0) ∧
      ¬(n = p) ∧
      ¬(ch = true ∧ ((List.range' 1 99).any fun i => decide (p ^ i % n = 1)) = true) := by
  unfold mkEC
  simp only [bind_ok_iff, checkGuard_ok_iff, exists_const]
  constructor
  · rintro ⟨h1, h2, h3, h4, h5, h6, h7, bG, hG, h8, h9, h10, h11, h12, I0, hI0,
      h13, h14, h15, H⟩
    have hbG : bG = true := by simpa using h8
    subst hbG
    have hIy : I0.y = 0 := by simpa using h13
    have hec : ec = ⟨p, a, b, G, n, h, t⟩ := by
      simp only [pure, Except.pure, Except.ok.injEq] at H
      exact H.symm
    refine ⟨hec, h1, by simpa using h2, h3, h4, by simpa using h5, by simpa using h6,
      h7, hG, h9, h10, by simpa using h11, h12, ⟨I0, hI0, hIy⟩, h14, h15⟩
  · rintro ⟨hec, h1, h2, h3, h4, h5, h6, h7, hG, h9, h10, h11, h12, ⟨I0, hI0, hIy⟩,
      h14, h15⟩
    subst hec
    refine ⟨h1, by simpa using h2, h3, h4, by simpa using h5, by simpa using h6, h7,
      true, hG, by simp, h9, h10, by simpa using h11, h12, I0, hI0, by simpa using hIy,
      h14, h15, ?_⟩
    rfl

/-- Facts established by a successful `EC.__init__` run (any `all_checks` flag). -/
theorem mkEC_ok {p a b : ℤ} {G : Point} {n h t : ℤ} {ch : Bool} {ec : EC}
    (H : mkEC p a b G n h t ch = .ok ec) :
    ec = ⟨p, a, b, G, n, h, t⟩ ∧ p % 2 ≠ 0 ∧ 2 ≤ n ∧
      (4 * a * a * a + 27 * b * b) % p ≠ 0 ∧
      (⟨p, a, b, G, n, h, t⟩ : EC).isOnCurve G = .ok true ∧
      ∃ I, checkOrder ⟨p, a, b, G, n, h, t⟩ = .ok I ∧ I.y = 0 := by
  rw [mkEC_ok_iff] at H
  obtain ⟨hec, h1, -, -, -, -, -, hdisc, hG, h9, -, -, -, hord, -, -⟩ := H
  refine ⟨hec, h1, ?_, hdisc, hG, hord⟩
  push_neg at h9
  omega

end Constructor

section SquareRoots

variable {q : ℕ} [Fact q.Prime]

/-- `mod_sqrt` succeeds on a quadratic residue and returns a reduced root. -/
theorem mod_sqrt_spec (hq2 : q ≠ 2) {a : ℤ} {y0 : ZMod q}
    (hsq : (a : ZMod q) = y0 ^ 2) (hy0 : y0 ≠ 0) :
    ∃ r : ℤ, mod_sqrt a (q : ℤ) = .ok r ∧ 0 ≤ r ∧ r < (q : ℤ) ∧
      ((r : ZMod q)) ^ 2 = (a : ZMod q) := by
  have hq1 : 1 < q := (Fact.out : q.Prime).one_lt
  have hodd : q % 2 = 1 :=
    Nat.odd_iff.mp ((Fact.out : q.Prime).odd_of_ne_two hq2)
  have heuler : (a : ZMod q) ^ ((q - 1) / 2) = 1 := by
    rw [hsq, ← pow_mul]
    rw [show 2 * ((q - 1) / 2) = q - 1 from by omega]
    exact ZMod.pow_card_sub_one_eq_one hy0
  unfold mod_sqrt
  by_cases hq4 : (q : ℤ) % 4 = 3
  · rw [if_pos hq4]
    have hq4n : q % 4 = 3 := by omega
    have he4 : (((q : ℤ) + 1) / 4).toNat + (((q : ℤ) + 1) / 4).toNat =
        (q - 1) / 2 + 1 := by omega
    have hpow : ((a ^ (((q : ℤ) + 1) / 4).toNat % (q : ℤ) : ℤ) : ZMod q) *
        ((a ^ (((q : ℤ) + 1) / 4).toNat % (q : ℤ) : ℤ) : ZMod q) = (a : ZMod q) := by
      rw [castInt_emod]
      push_cast
      rw [← pow_add, he4, pow_succ, heuler, one_mul]
    have hver : a ^ (((q : ℤ) + 1) / 4).toNat % (q : ℤ) *
        (a ^ (((q : ℤ) + 1) / 4).toNat % (q : ℤ)) % (q : ℤ) = a % (q : ℤ) := by
      rw [emod_eq_emod_iff_cast]
      push_cast [castInt_emod]
      push_cast [castInt_emod] at hpow
      linear_combination hpow
    rw [if_pos hver]
    refine ⟨_, rfl, (emod_range _).1, (emod_range _).2, ?_⟩
    rw [pow_two]
    exact hpow
  · rw [if_neg hq4]
    have hmem : ∃ x ∈ List.range (q : ℤ).toNat,
        (fun r => decide ((r : ℤ) * (r : ℤ) % (q : ℤ) = a % (q : ℤ))) x = true := by
      refine ⟨y0.val, List.mem_range.mpr (by simpa using y0.val_lt), ?_⟩
      simp only [decide_eq_true_eq]
      rw [emod_eq_emod_iff_cast]
      have hc : ((y0.val : ℤ) : ZMod q) = y0 := by
        rw [Int.cast_natCast, ZMod.natCast_val, ZMod.cast_id]
      push_cast
      push_cast at hc
      rw [hc, hsq]
      ring
    obtain ⟨r, hr⟩ := Option.isSome_iff_exists.mp (List.find?_isSome.mpr hmem)
    rw [hr]
    have hprop := List.find?_some hr
    have hmemr := List.mem_of_find?_eq_some hr
    simp only [decide_eq_true_eq] at hprop
    refine ⟨(r : ℤ), rfl, by positivity, ?_, ?_⟩
    · have hlt := List.mem_range.mp hmemr
      have : (r : ℤ) < ((q : ℤ).toNat : ℤ) := by exact_mod_cast hlt
      simpa using this
    · have := emod_eq_emod_iff_cast.mp hprop
      push_cast at this
      rw [pow_two]
      exact_mod_cast this

end SquareRoots

section ClaimSupport

variable {q : ℕ} [Fact q.Prime] {ec : EC}

/-- A successful construction with `ec.p = q` yields a valid bridge state. -/
theorem GoodEC_of_mkEC {p a b : ℤ} {G : Point} {n h t : ℤ} {ch : Bool}
    (H : mkEC p a b G n h t ch = .ok ec) (hp : ec.p = (q : ℤ)) : GoodEC ec q := by
  obtain ⟨hec, hodd, -, hdisc, -, -⟩ := mkEC_ok H
  subst hec
  have hpq : p = (q : ℤ) := hp
  have hq2 : q ≠ 2 := by
    intro h2
    rw [h2] at hpq
    push_cast at hpq
    omega
  refine ⟨hp, hq2, ?_⟩
  intro h0
  have h0i : ((4 * a ^ 3 + 27 * b ^ 2 : ℤ) : ZMod q) = 0 := h0
  have heq : ((4 * a * a * a + 27 * b * b : ℤ) : ZMod q) = 0 := by
    rw [show (4 * a * a * a + 27 * b * b : ℤ) = 4 * a ^ 3 + 27 * b ^ 2 from by ring]
    exact h0i
  have hrange := @emod_range q _ (4 * a * a * a + 27 * b * b)
  have hz : (4 * a * a * a + 27 * b * b) % (q : ℤ) = 0 := by
    apply int_eq_zero_of_cast_eq_zero hrange.1 hrange.2
    rw [castInt_emod]
    exact heq
  rw [hpq] at hdisc
  exact hdisc hz

omit [Fact q.Prime] in
theorem requireOnCurve_ok_iff {Q : Point} {u : Unit} :
    ec.requireOnCurve Q = .ok u ↔ ec.isOnCurve Q = .ok true := by
  unfold EC.requireOnCurve
  constructor
  · intro h
    rw [bind_ok_iff] at h
    obtain ⟨b, hb, hif⟩ := h
    cases b
    · simp at hif
    · exact hb
  · intro h
    rw [h]
    rfl

omit [Fact q.Prime] in
theorem add_ok_points {Q R S : Point} (h : ec.add Q R = .ok S) :
    ec.isOnCurve Q = .ok true ∧ ec.isOnCurve R = .ok true := by
  unfold EC.add at h
  rw [bind_ok_iff] at h
  obtain ⟨u1, hu1, h⟩ := h
  rw [bind_ok_iff] at h
  obtain ⟨u2, hu2, -⟩ := h
  exact ⟨requireOnCurve_ok_iff.mp hu1, requireOnCurve_ok_iff.mp hu2⟩

omit [Fact q.Prime] in
theorem pointMult_ok_points {n : ℤ} {Q S : Point} (h : pointMult ec n Q = .ok S) :
    ec.isOnCurve Q = .ok true := by
  unfold pointMult at h
  rw [bind_ok_iff] at h
  obtain ⟨u1, hu1, -⟩ := h
  exact requireOnCurve_ok_iff.mp hu1

omit [Fact q.Prime] in
theorem pointMultJacobian_zero (ec : EC) (J : JacPoint) :
    pointMultJacobian ec 0 J = ⟨1, 1, 0⟩ := by
  unfold pointMultJacobian
  split_ifs <;> rfl

/-- On a curve without two-torsion, the only encoded point with `y = 0` is the
canonical infinity. -/
theorem encodePoint_y_zero (hT : NoTwoTorsion q ec.a ec.b)
    {P : (curveW q ec.a ec.b).Point} (hy : (encodePoint P).y = 0) :
    encodePoint P = (⟨1, 0⟩ : Point) := by
  cases P with
  | zero => rfl
  | some hns =>
    rename_i x y
    have hyne : y ≠ 0 := no_two_torsion_y_ne hT hns
    have hv : ((y.val : ℤ)) = 0 := hy
    have : y.val = 0 := by omega
    exact absurd ((ZMod.val_eq_zero y).mp this) hyne

/-- On a curve without two-torsion, an encoded point with `y = 0` is the zero of
the group. -/
theorem encodePoint_y_zero_point (hT : NoTwoTorsion q ec.a ec.b)
    {P : (curveW q ec.a ec.b).Point} (hy : (encodePoint P).y = 0) : P = 0 := by
  cases P with
  | zero => rfl
  | some hns =>
    rename_i x y
    have hyne : y ≠ 0 := no_two_torsion_y_ne hT hns
    have hv : ((y.val : ℤ)) = 0 := hy
    have hv0 : y.val = 0 := by omega
    exact absurd ((ZMod.val_eq_zero y).mp hv0) hyne

/-- A reduced, canonically-encoded representative is exactly the reduced
encoding of the point it represents. -/
theorem ARep_encodePoint_eq {Q : Point} {P : (curveW q ec.a ec.b).Point}
    (h : ARep q ec Q P) (hx0 : 0 ≤ Q.x) (hx1 : Q.x < (q : ℤ))
    (hc : Q.y = 0 → Q = ⟨1, 0⟩) : Q = encodePoint P := by
  cases P with
  | zero => exact hc h
  | some hns =>
    rename_i x y
    obtain ⟨hy0, hy1, hxc, hyc⟩ := h
    have hqx := int_eq_val_of_cast_eq hx0 hx1 hxc
    have hqy := int_eq_val_of_cast_eq (le_of_lt hy0) hy1 hyc
    calc Q = (⟨Q.x, Q.y⟩ : Point) := rfl
      _ = ⟨(x.val : ℤ), (y.val : ℤ)⟩ := by rw [hqx, hqy]

/-- An `ok` result of `DblScalarMult` is always a reduced encoding of some
spec-level point (given a positive group order). -/
theorem DblScalarMult_ok_encode (hg : GoodEC ec q) (hn : 0 < ec.n)
    {u v : ℤ} {Q P S : Point} (h : DblScalarMult ec u Q v P = .ok S) :
    ∃ g : (curveW q ec.a ec.b).Point, S = encodePoint g := by
  unfold DblScalarMult at h
  by_cases hu : u = 0
  · rw [if_pos hu] at h
    by_cases hv : v = 0
    · rw [if_pos hv] at h
      injection h with h
      exact ⟨0, h.symm⟩
    · rw [if_neg hv] at h
      rw [bind_ok_iff] at h
      obtain ⟨y0, -, h⟩ := h
      simp only [] at h
      rw [bind_ok_iff] at h
      obtain ⟨u1, hu1, h⟩ := h
      obtain ⟨PP, hPP⟩ := ARep_exists hg (requireOnCurve_ok_iff.mp hu1)
      rw [affine_from_jac_rep hg (pointMultJacobian_rep hg (ARep_jac hPP))] at h
      replace h : Except.ok (encodePoint ((v % ec.n).toNat • PP)) = .ok S := h
      injection h with h
      exact ⟨_, h.symm⟩
  · rw [if_neg hu] at h
    rw [bind_ok_iff] at h
    obtain ⟨y0, -, h⟩ := h
    simp only [] at h
    rw [bind_ok_iff] at h
    obtain ⟨u1, hu1, h⟩ := h
    obtain ⟨PQ, hPQ⟩ := ARep_exists hg (requireOnCurve_ok_iff.mp hu1)
    have hurep : ec.affine_from_jac (pointMultJacobian ec (u % ec.n) (jac_from_aff Q)) =
        .ok (encodePoint ((u % ec.n).toNat • PQ)) :=
      affine_from_jac_rep hg (pointMultJacobian_rep hg (ARep_jac hPQ))
    by_cases hQy : Q.y = 0
    · rw [if_pos hQy] at h
      rw [bind_ok_iff] at h
      obtain ⟨u2, hu2, h⟩ := h
      obtain ⟨PP, hPP⟩ := ARep_exists hg (requireOnCurve_ok_iff.mp hu2)
      rw [affine_from_jac_rep hg (pointMultJacobian_rep hg (ARep_jac hPP))] at h
      replace h : Except.ok (encodePoint ((v % ec.n).toNat • PP)) = .ok S := h
      injection h with h
      exact ⟨_, h.symm⟩
    · rw [if_neg hQy] at h
      by_cases hv : v = 0
      · rw [if_pos hv] at h
        rw [hurep] at h
        replace h : Except.ok (encodePoint ((u % ec.n).toNat • PQ)) = .ok S := h
        injection h with h
        exact ⟨_, h.symm⟩
      · rw [if_neg hv] at h
        rw [bind_ok_iff] at h
        obtain ⟨y1, -, h⟩ := h
        rw [bind_ok_iff] at h
        obtain ⟨y2, -, h⟩ := h
        rw [bind_ok_iff] at h
        obtain ⟨u2, hu2, h⟩ := h
        obtain ⟨PP, hPP⟩ := ARep_exists hg (requireOnCurve_ok_iff.mp hu2)
        by_cases hPy : P.y = 0
        · rw [if_pos hPy] at h
          rw [hurep] at h
          replace h : Except.ok (encodePoint ((u % ec.n).toNat • PQ)) = .ok S := h
          injection h with h
          exact ⟨_, h.symm⟩
        · rw [if_neg hPy] at h
          have hu0 : 0 ≤ u % ec.n := Int.emod_nonneg u (ne_of_gt hn)
          have hv0 : 0 ≤ v % ec.n := Int.emod_nonneg v (ne_of_gt hn)
          have hub : u % ec.n <
              2 ^ max (bitLength (u % ec.n)) (bitLength (v % ec.n)) :=
            bitLength_lt_pow hu0 (le_max_left _ _)
          have hvb : v % ec.n <
              2 ^ max (bitLength (u % ec.n)) (bitLength (v % ec.n)) :=
            bitLength_lt_pow hv0 (le_max_right _ _)
          have h0 : JRep q ec (⟨1, 1, 0⟩ : JacPoint)
              (0 : (curveW q ec.a ec.b).Point) := rfl
          have hloop := shamirLoop_rep hg
            (max (bitLength (u % ec.n)) (bitLength (v % ec.n)))
            (u % ec.n) (v % ec.n) hu0 hub hv0 hvb h0 (ARep_jac hPQ) (ARep_jac hPP)
          rw [nsmul_zero, zero_add] at hloop
          rw [affine_from_jac_rep hg hloop] at h
          injection h with h
          exact ⟨_, h.symm⟩

/-- `_addAffine` on reduced, canonically-encoded representatives computes the
group law of the curve (hence matches the Jacobian path). -/
theorem addAffine_rep (hg : GoodEC ec q) {Q R : Point}
    {P1 P2 : (curveW q ec.a ec.b).Point}
    (h1 : ARep q ec Q P1) (h2 : ARep q ec R P2)
    (hx1 : 0 ≤ Q.x) (hx2 : Q.x < ec.p) (hx3 : 0 ≤ R.x) (hx4 : R.x < ec.p)
    (hc1 : Q.y = 0 → Q = ⟨1, 0⟩) (hc2 : R.y = 0 → R = ⟨1, 0⟩) :
    ec.addAffine Q R = .ok (encodePoint (P1 + P2)) := by
  rw [hg.hp] at hx2 hx4
  have h2ne : (2 : ZMod q) ≠ 0 := zmod_two_ne_zero hg.hq2
  unfold EC.addAffine
  by_cases hRy : R.y = 0
  · rw [if_pos hRy]
    have hP2 : P2 = 0 := ARep_infinity h2 hRy
    subst hP2
    rw [add_zero, ← ARep_encodePoint_eq h1 hx1 hx2 hc1]
    rfl
  · rw [if_neg hRy, pureBind]
    by_cases hQy : Q.y = 0
    · rw [if_pos hQy]
      have hP1 : P1 = 0 := ARep_infinity h1 hQy
      subst hP1
      rw [zero_add, ← ARep_encodePoint_eq h2 hx3 hx4 hc2]
      rfl
    · rw [if_neg hQy, pureBind]
      cases P1 with
      | zero => exact absurd h1 hQy
      | some hns1 =>
        rename_i x1 y1
        cases P2 with
        | zero => exact absurd h2 hRy
        | some hns2 =>
          rename_i x2 y2
          obtain ⟨hy10, hy11, hxc1, hyc1⟩ := h1
          obtain ⟨hy20, hy21, hxc2, hyc2⟩ := h2
          have hy1ne : y1 ≠ 0 := fun h0 =>
            hQy (int_eq_zero_of_cast_eq_zero (le_of_lt hy10) hy11 (by rw [hyc1, h0]))
          by_cases hxx : R.x = Q.x
          · rw [if_pos hxx]
            have hxeq : x1 = x2 := by rw [← hxc1, ← hxc2, hxx]
            subst hxeq
            by_cases hyy : R.y = Q.y
            · rw [if_pos hyy]
              have hyeq : y1 = y2 := by rw [← hyc1, ← hyc2, hyy]
              subst hyeq
              have h2y : ((2 * Q.y : ℤ) : ZMod q) ≠ 0 := by
                push_cast
                rw [hyc1]
                exact mul_ne_zero h2ne hy1ne
              obtain ⟨i, hi, him, hi0, hi1⟩ := @mod_inv_ok q _ _ h2y
              have h2y1 : (2 : ZMod q) * y1 ≠ 0 := mul_ne_zero h2ne hy1ne
              have hrel : (2 : ZMod q) * y1 * (i : ZMod q) = 1 := by
                calc (2 : ZMod q) * y1 * (i : ZMod q)
                    = ((2 * Q.y : ℤ) : ZMod q) * (i : ZMod q) := by
                      push_cast
                      rw [hyc1]
                  _ = 1 := him
              have hlam : (3 * x1 ^ 2 + (ec.a : ZMod q)) * (i : ZMod q) =
                  (3 * x1 ^ 2 + (ec.a : ZMod q)) / (2 * y1) := by
                rw [eq_div_iff h2y1]
                linear_combination (3 * x1 ^ 2 + (ec.a : ZMod q)) * hrel
              have hyne0 : y1 ≠ -y1 := by
                intro hc
                apply hy1ne
                have h2y1 : (2 : ZMod q) * y1 = 0 := by linear_combination hc
                rcases mul_eq_zero.mp h2y1 with h' | h'
                · exact absurd h' h2ne
                · exact h'
              have hyne : y1 ≠ (curveW q ec.a ec.b).negY x1 y1 := by
                rw [curveW_negY]
                exact hyne0
              have hL : (curveW q ec.a ec.b).slope x1 x1 y1 y1 =
                  (3 * x1 ^ 2 + (ec.a : ZMod q)) / (2 * y1) :=
                curveW_slope_of_Y_ne rfl hyne0
              rw [hg.hp, hi, okBind,
                WeierstrassCurve.Affine.Point.add_of_Y_ne hyne]
              have hA : ((3 * Q.x * Q.x + ec.a) * i % (q : ℤ) *
                    ((3 * Q.x * Q.x + ec.a) * i % (q : ℤ)) - Q.x - R.x) % (q : ℤ) =
                  (((curveW q ec.a ec.b).addX x1 x1
                    ((curveW q ec.a ec.b).slope x1 x1 y1 y1)).val : ℤ) := by
                apply int_eq_val_of_cast_eq (emod_range _).1 (emod_range _).2
                rw [curveW_addX, hL, ← hlam]
                push_cast [castInt_emod]
                rw [hxc1, hxc2]
                ring
              have hB : ((3 * Q.x * Q.x + ec.a) * i % (q : ℤ) *
                    (Q.x - ((3 * Q.x * Q.x + ec.a) * i % (q : ℤ) *
                      ((3 * Q.x * Q.x + ec.a) * i % (q : ℤ)) - Q.x - R.x) % (q : ℤ)) -
                    Q.y) % (q : ℤ) =
                  (((curveW q ec.a ec.b).addY x1 x1 y1
                    ((curveW q ec.a ec.b).slope x1 x1 y1 y1)).val : ℤ) := by
                apply int_eq_val_of_cast_eq (emod_range _).1 (emod_range _).2
                rw [curveW_addY, hL, ← hlam]
                push_cast [castInt_emod]
                rw [hxc1, hxc2, hyc1]
                ring
              show Except.ok
                (⟨((3 * Q.x * Q.x + ec.a) * i % (q : ℤ) *
                    ((3 * Q.x * Q.x + ec.a) * i % (q : ℤ)) - Q.x - R.x) % (q : ℤ),
                  ((3 * Q.x * Q.x + ec.a) * i % (q : ℤ) *
                    (Q.x - ((3 * Q.x * Q.x + ec.a) * i % (q : ℤ) *
                      ((3 * Q.x * Q.x + ec.a) * i % (q : ℤ)) - Q.x - R.x) % (q : ℤ)) -
                    Q.y) % (q : ℤ)⟩ : Point) = _
              rw [hB, hA]
              rfl
            · rw [if_neg hyy]
              have hyne2 : y1 ≠ y2 := by
                intro he
                apply hyy
                apply int_eq_of_cast_eq (le_of_lt hy20) hy21 (le_of_lt hy10) hy11
                rw [hyc1, hyc2, he]
              have hyy2 : y1 = (curveW q ec.a ec.b).negY x1 y2 := by
                rcases WeierstrassCurve.Affine.Y_eq_of_X_eq hns1.1 hns2.1 rfl with h' | h'
                · exact absurd h' hyne2
                · exact h'
              rw [WeierstrassCurve.Affine.Point.add_of_Y_eq rfl hyy2]
              rfl
          · rw [if_neg hxx]
            have hxne : x1 ≠ x2 := by
              intro he
              apply hxx
              apply int_eq_of_cast_eq hx3 hx4 hx1 hx2
              rw [hxc1, hxc2, ← he]
            have hxz : ((R.x - Q.x : ℤ) : ZMod q) ≠ 0 := by
              push_cast
              rw [hxc1, hxc2]
              exact fun hc => hxne (by linear_combination -hc)
            obtain ⟨i, hi, him, hi0, hi1⟩ := @mod_inv_ok q _ _ hxz
            have hrel : (x2 - x1) * (i : ZMod q) = 1 := by
              calc (x2 - x1) * (i : ZMod q)
                  = ((R.x - Q.x : ℤ) : ZMod q) * (i : ZMod q) := by
                    push_cast
                    rw [hxc1, hxc2]
                _ = 1 := him
            have hlam : (y2 - y1) * (i : ZMod q) = (y1 - y2) / (x1 - x2) := by
              rw [eq_div_iff (sub_ne_zero.mpr hxne)]
              linear_combination (y1 - y2) * hrel
            have hL : (curveW q ec.a ec.b).slope x1 x2 y1 y2 = (y1 - y2) / (x1 - x2) :=
              curveW_slope_of_X_ne hxne
            have hsub : x2 - x1 ≠ 0 := sub_ne_zero.mpr (Ne.symm hxne)
            rw [hg.hp, hi, okBind, WeierstrassCurve.Affine.Point.add_of_X_ne hxne]
            have hA : ((R.y - Q.y) * i % (q : ℤ) * ((R.y - Q.y) * i % (q : ℤ)) -
                  Q.x - R.x) % (q : ℤ) =
                (((curveW q ec.a ec.b).addX x1 x2
                  ((curveW q ec.a ec.b).slope x1 x2 y1 y2)).val : ℤ) := by
              apply int_eq_val_of_cast_eq (emod_range _).1 (emod_range _).2
              rw [curveW_addX, hL, ← hlam]
              push_cast [castInt_emod]
              rw [hxc1, hxc2, hyc1, hyc2]
              ring
            have hB : ((R.y - Q.y) * i % (q : ℤ) *
                  (Q.x - ((R.y - Q.y) * i % (q : ℤ) * ((R.y - Q.y) * i % (q : ℤ)) -
                    Q.x - R.x) % (q : ℤ)) - Q.y) % (q : ℤ) =
                (((curveW q ec.a ec.b).addY x1 x2 y1
                  ((curveW q ec.a ec.b).slope x1 x2 y1 y2)).val : ℤ) := by
              apply int_eq_val_of_cast_eq (emod_range _).1 (emod_range _).2
              rw [curveW_addY, hL, ← hlam]
              push_cast [castInt_emod]
              rw [hxc1, hxc2, hyc1, hyc2]
              ring
            show Except.ok
              (⟨((R.y - Q.y) * i % (q : ℤ) * ((R.y - Q.y) * i % (q : ℤ)) -
                  Q.x - R.x) % (q : ℤ),
                ((R.y - Q.y) * i % (q : ℤ) *
                  (Q.x - ((R.y - Q.y) * i % (q : ℤ) * ((R.y - Q.y) * i % (q : ℤ)) -
                    Q.x - R.x) % (q : ℤ)) - Q.y) % (q : ℤ)⟩ : Point) = _
            rw [hB, hA]
            rfl

end ClaimSupport

/-!
Concrete curves used as witnesses and counterexamples.
-/

/-- The curve `y² = x³ + 1` over `F₇` with the generator encoded as the
two-torsion point `(3, 0)` (which `isOnCurve` reads as infinity); accepted by
`EC.__init__` with `all_checks = false`. -/
def ecT : EC := ⟨7, 0, 1, ⟨3, 0⟩, 13, 1, 0⟩

/-- The curve `y² = x³ + x + 1` over `F₇` (five points, no two-torsion) with
generator `(0, 1)` of order 5; accepted by `EC.__init__` with
`all_checks = false`. -/
def ecW : EC := ⟨7, 1, 1, ⟨0, 1⟩, 5, 2, 0⟩

/-- The curve `y² = x³ + 1` over `F₇` with the generator encoded as the
non-canonical infinity `(5, 0)`; accepted by `EC.__init__` with
`all_checks = false`. -/
def ec5 : EC := ⟨7, 0, 1, ⟨5, 0⟩, 13, 1, 0⟩

/-!
The claims.
-/

/-- C10: for every pair of values `Q` and `P`, including points not on the curve,
`DblScalarMult(ec, 0, Q, 0, P)` returns the canonical infinity `(1, 0)` without
raising any error: no curve-membership validation happens when both scalars are
zero. -/
theorem dblScalarMult_zero_zero (ec : EC) (Q P : Point) :
    DblScalarMult ec 0 Q 0 P = .ok ⟨1, 0⟩ := by
  unfold DblScalarMult
  rw [if_pos rfl, if_pos rfl]
  rfl

/-- `isOnCurveL` on a two-element list, unfolded. -/
theorem isOnCurveL_pair (ec : EC) (x y : ℤ) :
    ec.isOnCurveL [x, y] =
      if y = 0 then .ok true
      else if ¬(0 < y ∧ y < ec.p) then .error .invalidInput
      else .ok (decide (ec.y2 x = y * y % ec.p)) := rfl

/-- C9: `isOnCurve` never range-checks the x-coordinate: for `0 < y < p` the
outcome at `(x, y)` and at `(x mod p, y)` is the same, so points with `x ≥ p` or
`x < 0` can be accepted as on-curve (witnessed on `ecT` by `(8, 3)` and
`(-6, 3)`). -/
theorem isOnCurve_ignores_x_range :
    (∀ (ec : EC) (x y : ℤ), 0 < y → y < ec.p →
      ec.isOnCurve ⟨x, y⟩ = ec.isOnCurve ⟨x % ec.p, y⟩) ∧
    ecT.isOnCurve ⟨8, 3⟩ = .ok true ∧ ecT.isOnCurve ⟨-6, 3⟩ = .ok true := by
  refine ⟨?_, by decide, by decide⟩
  intro ec x y hy0 hy1
  have hy : ¬y = 0 := by omega
  have hyr : ¬¬(0 < y ∧ y < ec.p) := not_not_intro ⟨hy0, hy1⟩
  rw [show ec.isOnCurve ⟨x, y⟩ = ec.isOnCurveL [x, y] from rfl,
    show ec.isOnCurve ⟨x % ec.p, y⟩ = ec.isOnCurveL [x % ec.p, y] from rfl,
    isOnCurveL_pair, isOnCurveL_pair, if_neg hy, if_neg hy, if_neg hyr, if_neg hyr]
  have hmod : x % ec.p ≡ x [ZMOD ec.p] := Int.emod_emod_of_dvd x dvd_rfl
  have hcong : ec.y2 (x % ec.p) = ec.y2 x := by
    unfold EC.y2
    exact (((hmod.mul hmod).add_right ec.a).mul hmod).add_right ec.b
  rw [hcong]

/-- C6: with `all_checks = false`, construction succeeds exactly when the basic
checks pass (p odd and passing the base-2 Fermat test, a and b reduced mod p,
nonzero discriminant, G on the curve, n ≥ 2 passing its base-2 Fermat screen, h
equal to the expected cofactor value, (n−1)·G + G landing on y = 0, and n ≠ p),
with the Hasse bound, the `p^i mod n ≠ 1` checks and the security-level (t)
checks all skipped; the parameter set (7, 0, 1, (3,0), 2, 6, 55) — which
violates the Hasse bound, the `p^1 mod n ≠ 1` check and the t checks — is
accepted. -/
theorem mkEC_all_checks_false :
    (∀ (p a b : ℤ) (G : Point) (n h t : ℤ) (ec : EC),
      mkEC p a b G n h t false = .ok ec ↔
        ec = ⟨p, a, b, G, n, h, t⟩ ∧
        ¬(p % 2 = 0) ∧
        2 ^ (p - 1).toNat % p = 1 ∧
        (0 ≤ a ∧ a < p) ∧
        (0 ≤ b ∧ b < p) ∧
        ¬((4 * a * a * a + 27 * b * b) % p = 0) ∧
        (⟨p, a, b, G, n, h, t⟩ : EC).isOnCurve G = .ok true ∧
        ¬(n < 2 ∨ (n > 2 ∧ ¬2 ^ (n - 1).toNat % n = 1)) ∧
        h = (p + 1 + intSqrt (4 * p)) / n ∧
        (∃ I, checkOrder ⟨p, a, b, G, n, h, t⟩ = .ok I ∧ I.y = 0) ∧
        ¬(n = p)) ∧
    mkEC 7 0 1 ⟨3, 0⟩ 2 6 55 false = .ok ⟨7, 0, 1, ⟨3, 0⟩, 2, 6, 55⟩ := by
  constructor
  · intro p a b G n h t ec
    rw [mkEC_ok_iff]
    simp only [Bool.false_eq_true, false_and, and_false, not_false_eq_true,
      true_and, and_true]
  · decide

/-- C2 counterexample: on the constructible curve `ecT` (whose two-torsion point
`(3, 0)` is read as infinity), Shamir's trick disagrees with
`add(pointMult(u, Q), pointMult(v, P))` on the on-curve points `(1, 3)`,
`(0, 1)` with scalars 3 and 1. -/
theorem dblScalarMult_ne_add_pointMult :
    mkEC 7 0 1 ⟨3, 0⟩ 13 1 0 false = .ok ecT ∧
    ecT.isOnCurve ⟨1, 3⟩ = .ok true ∧ ecT.isOnCurve ⟨0, 1⟩ = .ok true ∧
    DblScalarMult ecT 3 ⟨1, 3⟩ 1 ⟨0, 1⟩ = .ok ⟨1, 4⟩ ∧
    (do
      let A ← pointMult ecT 3 ⟨1, 3⟩
      let B ← pointMult ecT 1 ⟨0, 1⟩
      ecT.add A B) = .ok ⟨0, 1⟩ ∧
    (⟨1, 4⟩ : Point) ≠ ⟨0, 1⟩ := by decide

/-- C3 counterexample: `_addAffine` and the Jacobian path disagree on `ecT` at
the points `(5, 0)` (read as infinity, but not canonical) and `(1, 0)`: the
affine code echoes `(5, 0)` while the Jacobian code returns `(1, 0)`. -/
theorem addAffine_ne_jacobian :
    ecT.isOnCurve ⟨5, 0⟩ = .ok true ∧ ecT.isOnCurve ⟨1, 0⟩ = .ok true ∧
    ecT.addAffine ⟨5, 0⟩ ⟨1, 0⟩ = .ok ⟨5, 0⟩ ∧
    ecT.affine_from_jac
      (ecT.addJacobian (jac_from_aff ⟨5, 0⟩) (jac_from_aff ⟨1, 0⟩)) = .ok ⟨1, 0⟩ ∧
    (⟨5, 0⟩ : Point) ≠ ⟨1, 0⟩ := by decide

/-- C5 counterexample: the constructible curve `ec5` has the non-canonical
infinity `(5, 0)` as generator; `pointMult(n − 1, G)` returns the canonical
infinity `(1, 0)` while `opposite(G)` echoes `(5, 0)`. -/
theorem pointMult_pred_ne_opposite :
    mkEC 7 0 1 ⟨5, 0⟩ 13 1 0 false = .ok ec5 ∧
    pointMult ec5 (ec5.n - 1) ec5.G = .ok ⟨1, 0⟩ ∧
    ec5.opposite ec5.G = .ok ⟨5, 0⟩ ∧
    (⟨1, 0⟩ : Point) ≠ ⟨5, 0⟩ := by decide

/-- C7 counterexample: `(8, 3)` passes `isOnCurve` on `ecT` (its x-coordinate is
not range-checked), `3 ≠ 0`, yet `yOdd(8, 3 mod 2)` raises instead of returning
3. -/
theorem yOdd_not_roundtrip :
    ecT.isOnCurve ⟨8, 3⟩ = .ok true ∧ (3 : ℤ) ≠ 0 ∧
    ecT.yOdd 8 (3 % 2) = .error .invalidInput := by decide

/-- C8 counterexample: on the constructible curve `ecT`, adding the on-curve
points `(1, 3)` and `(0, 1)` returns the two-torsion point `(3, 0)`: a point
with zero y-coordinate that is not the canonical infinity `(1, 0)`. -/
theorem add_y_zero_not_canonical :
    mkEC 7 0 1 ⟨3, 0⟩ 13 1 0 false = .ok ecT ∧
    ecT.isOnCurve ⟨1, 3⟩ = .ok true ∧ ecT.isOnCurve ⟨0, 1⟩ = .ok true ∧
    ecT.add ⟨1, 3⟩ ⟨0, 1⟩ = .ok ⟨3, 0⟩ ∧
    (⟨3, 0⟩ : Point).y = 0 ∧ (⟨3, 0⟩ : Point) ≠ ⟨1, 0⟩ := by decide

/-- C9 witness: the generic part applied at `ecT`, `x = 8`, `y = 3`. -/
theorem isOnCurve_ignores_x_range_witness :
    ecT.isOnCurve ⟨8, 3⟩ = ecT.isOnCurve ⟨8 % ecT.p, 3⟩ ∧
      (0 : ℤ) < 3 ∧ (3 : ℤ) < ecT.p :=
  ⟨isOnCurve_ignores_x_range.1 ecT 8 3 (by decide) (by decide), by decide, by decide⟩

/-- C4: the duck-typed `isOnCurve` rejects tuples that do not have exactly two
coordinates with the shape error; on `(x, y)` it accepts when `y = 0`, rejects
`y` outside the open interval `(0, p)` with the invalid-input error, and
otherwise answers exactly whether `y² ≡ x³ + a·x + b (mod p)`. -/
theorem isOnCurve_cases (ec : EC) :
    (∀ l : List ℤ, l.length ≠ 2 → ec.isOnCurveL l = .error .typeMismatch) ∧
    (∀ x : ℤ, ec.isOnCurveL [x, 0] = .ok true) ∧
    (∀ x y : ℤ, y ≠ 0 → ¬(0 < y ∧ y < ec.p) →
      ec.isOnCurveL [x, y] = .error .invalidInput) ∧
    (∀ x y : ℤ, 0 < y → y < ec.p →
      (ec.isOnCurveL [x, y] = .ok true ↔
        y ^ 2 ≡ x ^ 3 + ec.a * x + ec.b [ZMOD ec.p])) := by
  refine ⟨?_, ?_, ?_, ?_⟩
  · intro l hl
    unfold EC.isOnCurveL
    match l with
    | [] => rfl
    | [x] => rfl
    | [x, y] => exact absurd rfl hl
    | x :: y :: z :: rest => rfl
  · intro x
    rw [isOnCurveL_pair, if_pos rfl]
  · intro x y hy hyr
    rw [isOnCurveL_pair, if_neg hy, if_pos hyr]
  · intro x y hy0 hy1
    rw [isOnCurveL_pair, if_neg (by omega : ¬y = 0), if_neg (not_not_intro ⟨hy0, hy1⟩)]
    constructor
    · intro hok
      have hb : ec.y2 x = y * y % ec.p := by
        rcases Decidable.em (ec.y2 x = y * y % ec.p) with hc | hc
        · exact hc
        · rw [decide_eq_false hc] at hok
          exact absurd hok (by simp)
      unfold EC.y2 at hb
      have : (x * x + ec.a) * x + ec.b ≡ y * y [ZMOD ec.p] := hb
      have h2 := this.symm
      calc y ^ 2 = y * y := by ring
        _ ≡ (x * x + ec.a) * x + ec.b [ZMOD ec.p] := h2
        _ = x ^ 3 + ec.a * x + ec.b := by ring
    · intro hmod
      have hb : ec.y2 x = y * y % ec.p := by
        unfold EC.y2
        show _ % ec.p = _ % ec.p
        have h1 : (x * x + ec.a) * x + ec.b = x ^ 3 + ec.a * x + ec.b := by ring
        have h2 : y * y = y ^ 2 := by ring
        rw [h1, h2]
        exact hmod.symm
      rw [hb]
      simp

/-- C4 witness: the four cases applied at `ecT` with concrete inputs. -/
theorem isOnCurve_cases_witness :
    ecT.isOnCurveL [1] = .error .typeMismatch ∧
    ecT.isOnCurveL [5, 0] = .ok true ∧
    ecT.isOnCurveL [0, 9] = .error .invalidInput ∧
    (ecT.isOnCurveL [0, 1] = .ok true ↔ (1 : ℤ) ^ 2 ≡ 0 ^ 3 + ecT.a * 0 + ecT.b [ZMOD ecT.p]) :=
  ⟨(isOnCurve_cases ecT).1 [1] (by decide),
   (isOnCurve_cases ecT).2.1 5,
   (isOnCurve_cases ecT).2.2.1 0 9 (by decide) (by decide),
   (isOnCurve_cases ecT).2.2.2 0 1 (by decide) (by decide)⟩

/-- C3 (amended): on a curve with odd prime field size and nonzero discriminant,
for on-curve points whose x-coordinates are reduced into `[0, p)` and whose
infinity encoding is the canonical `(1, 0)`, `_addAffine` agrees with the
Jacobian-coordinates path. -/
theorem addAffine_eq_jacobian_on_canonical : ∀ (q : ℕ), Nat.Prime q →
    ∀ ec : EC, ec.p = (q : ℤ) → q ≠ 2 →
    ((4 * ec.a ^ 3 + 27 * ec.b ^ 2 : ℤ) : ZMod q) ≠ 0 →
    ∀ Q R : Point, ec.isOnCurve Q = .ok true → ec.isOnCurve R = .ok true →
    0 ≤ Q.x → Q.x < ec.p → 0 ≤ R.x → R.x < ec.p →
    (Q.y = 0 → Q = ⟨1, 0⟩) → (R.y = 0 → R = ⟨1, 0⟩) →
    ec.addAffine Q R =
      ec.affine_from_jac (ec.addJacobian (jac_from_aff Q) (jac_from_aff R)) := by
  intro q hq ec hp hq2 hdisc Q R honcQ honcR hx1 hx2 hx3 hx4 hc1 hc2
  haveI : Fact q.Prime := ⟨hq⟩
  have hg : GoodEC ec q := ⟨hp, hq2, hdisc⟩
  obtain ⟨P1, h1⟩ := ARep_exists hg honcQ
  obtain ⟨P2, h2⟩ := ARep_exists hg honcR
  rw [addAffine_rep hg h1 h2 hx1 hx2 hx3 hx4 hc1 hc2,
    affine_from_jac_rep hg (addJacobian_rep hg (ARep_jac h1) (ARep_jac h2))]

/-- C3 witness: the amended equivalence applied on `ecT` at `(1, 3)` and `(0, 1)`. -/
theorem addAffine_eq_jacobian_on_canonical_witness :
    ecT.addAffine ⟨1, 3⟩ ⟨0, 1⟩ =
      ecT.affine_from_jac (ecT.addJacobian (jac_from_aff ⟨1, 3⟩) (jac_from_aff ⟨0, 1⟩)) :=
  addAffine_eq_jacobian_on_canonical 7 (by norm_num) ecT (by decide) (by decide)
    (by decide) ⟨1, 3⟩ ⟨0, 1⟩ (by decide) (by decide) (by decide) (by decide)
    (by decide) (by decide) (by decide) (by decide)

/-- C8 (amended): on a curve with odd prime field size, nonzero discriminant and
no two-torsion, whenever `add`, `pointMult` or `DblScalarMult` (the latter under
a positive group order) returns a point with zero y-coordinate, that point is
exactly the canonical infinity `(1, 0)`. -/
theorem result_y_zero_canonical : ∀ (q : ℕ), Nat.Prime q →
    ∀ ec : EC, ec.p = (q : ℤ) → q ≠ 2 →
    ((4 * ec.a ^ 3 + 27 * ec.b ^ 2 : ℤ) : ZMod q) ≠ 0 →
    NoTwoTorsion q ec.a ec.b →
    (∀ Q R S : Point, ec.add Q R = .ok S → S.y = 0 → S = ⟨1, 0⟩) ∧
    (∀ (n : ℤ) (Q S : Point), pointMult ec n Q = .ok S → S.y = 0 → S = ⟨1, 0⟩) ∧
    (0 < ec.n → ∀ (u : ℤ) (Q : Point) (v : ℤ) (P S : Point),
      DblScalarMult ec u Q v P = .ok S → S.y = 0 → S = ⟨1, 0⟩) := by
  intro q hq ec hp hq2 hdisc hT
  haveI : Fact q.Prime := ⟨hq⟩
  have hg : GoodEC ec q := ⟨hp, hq2, hdisc⟩
  refine ⟨?_, ?_, ?_⟩
  · intro Q R S hok hy
    obtain ⟨honcQ, honcR⟩ := add_ok_points hok
    obtain ⟨P1, h1⟩ := ARep_exists hg honcQ
    obtain ⟨P2, h2⟩ := ARep_exists hg honcR
    have hrep := add_rep hg h1 h2
    rw [hok] at hrep
    injection hrep with hS
    rw [hS] at hy ⊢
    rw [encodePoint_y_zero_point hT hy]
    rfl
  · intro n Q S hok hy
    obtain ⟨PQ, hQ⟩ := ARep_exists hg (pointMult_ok_points hok)
    have hrep : pointMult ec n Q = .ok (encodePoint ((n % ec.n).toNat • PQ)) :=
      pointMult_rep hg hQ
    rw [hok] at hrep
    injection hrep with hS
    rw [hS] at hy ⊢
    rw [encodePoint_y_zero_point hT hy]
    rfl
  · intro hn u Q v P S hok hy
    obtain ⟨g, hS⟩ := DblScalarMult_ok_encode hg hn hok
    rw [hS] at hy ⊢
    rw [encodePoint_y_zero_point hT hy]
    rfl

/-- C8 witness: on `ecW`, adding `(0, 1)` and its opposite `(0, 6)` gives the
canonical infinity. -/
theorem result_y_zero_canonical_witness :
    ((⟨1, 0⟩ : Point) = (⟨1, 0⟩ : Point)) ∧ ecW.add ⟨0, 1⟩ ⟨0, 6⟩ = .ok ⟨1, 0⟩ :=
  ⟨(result_y_zero_canonical 7 (by norm_num) ecW rfl (by decide) (by decide)
    (by decide)).1 ⟨0, 1⟩ ⟨0, 6⟩ ⟨1, 0⟩ (by decide) rfl, by decide⟩

/-- C2 (amended): on a successfully constructed curve without two-torsion,
`DblScalarMult` agrees with `add(pointMult(u, Q), pointMult(v, P))` for on-curve
points and non-negative scalars. -/
theorem dblScalarMult_eq_add_pointMult : ∀ (q : ℕ), Nat.Prime q →
    ∀ (p a b : ℤ) (G : Point) (n h t : ℤ) (ch : Bool) (ec : EC),
    mkEC p a b G n h t ch = .ok ec → ec.p = (q : ℤ) → NoTwoTorsion q ec.a ec.b →
    ∀ (u v : ℤ) (Q P : Point), 0 ≤ u → 0 ≤ v →
    ec.isOnCurve Q = .ok true → ec.isOnCurve P = .ok true →
    DblScalarMult ec u Q v P =
      (do
        let A ← pointMult ec u Q
        let B ← pointMult ec v P
        ec.add A B) := by
  intro q hq p a b G n h t ch ec hmk hp hT u v Q P hu hv honcQ honcP
  haveI : Fact q.Prime := ⟨hq⟩
  have hg : GoodEC ec q := GoodEC_of_mkEC hmk hp
  have hn : 0 < ec.n := by
    obtain ⟨hec, -, hn2, -, -, -⟩ := mkEC_ok hmk
    rw [hec]
    exact lt_of_lt_of_le (by norm_num) hn2
  obtain ⟨PQ, hQ⟩ := ARep_exists hg honcQ
  obtain ⟨PP, hP⟩ := ARep_exists hg honcP
  rw [DblScalarMult_rep hg hQ hP hn]
  simp only [pointMult_rep hg hQ, pointMult_rep hg hP, okBind]
  rw [add_rep hg (encode_ARep hT ((u % ec.n).toNat • PQ))
    (encode_ARep hT ((v % ec.n).toNat • PP))]

/-- C2 witness: the amended equality applied on `ecW` with scalars 2 and 3 at
`(0, 1)` and `(2, 5)`. -/
theorem dblScalarMult_eq_add_pointMult_witness :
    DblScalarMult ecW 2 ⟨0, 1⟩ 3 ⟨2, 5⟩ =
      (do
        let A ← pointMult ecW 2 ⟨0, 1⟩
        let B ← pointMult ecW 3 ⟨2, 5⟩
        ecW.add A B) :=
  dblScalarMult_eq_add_pointMult 7 (by norm_num) 7 1 1 ⟨0, 1⟩ 5 2 0 false ecW
    (by decide) rfl (by decide) 2 3 ⟨0, 1⟩ ⟨2, 5⟩ (by decide) (by decide)
    (by decide) (by decide)

/-- C5 (amended): on a successfully constructed curve without two-torsion whose
generator is reduced and canonically encoded, `pointMult(n, G)` is the canonical
infinity and `pointMult(n − 1, G)` equals `opposite(G)`; the scalar is always
reduced mod n first. -/
theorem pointMult_order_and_pred : ∀ (q : ℕ), Nat.Prime q →
    ∀ (p a b : ℤ) (G : Point) (n h t : ℤ) (ch : Bool) (ec : EC),
    mkEC p a b G n h t ch = .ok ec → ec.p = (q : ℤ) → NoTwoTorsion q ec.a ec.b →
    0 ≤ ec.G.x → ec.G.x < ec.p → (ec.G.y = 0 → ec.G = ⟨1, 0⟩) →
    (∀ (k : ℤ) (Q : Point), pointMult ec k Q = pointMult ec (k % ec.n) Q) ∧
    pointMult ec ec.n ec.G = .ok ⟨1, 0⟩ ∧
    pointMult ec (ec.n - 1) ec.G = ec.opposite ec.G := by
  intro q hq p a b G n h t ch ec hmk hp hT hx0 hx1 hcan
  haveI : Fact q.Prime := ⟨hq⟩
  have hg : GoodEC ec q := GoodEC_of_mkEC hmk hp
  obtain ⟨hec, -, hn2r, -, hGr, hordr⟩ := mkEC_ok hmk
  have hGonc : ec.isOnCurve ec.G = .ok true := by
    rw [hec]
    exact hGr
  have hn2 : 2 ≤ ec.n := by
    rw [hec]
    exact hn2r
  obtain ⟨I, hIeq0, hIy⟩ := hordr
  have hIeq : checkOrder ec = .ok I := by
    rw [hec]
    exact hIeq0
  rw [hg.hp] at hx1
  refine ⟨?_, ?_, ?_⟩
  · intro k Q
    unfold pointMult
    rw [Int.emod_emod_of_dvd k dvd_rfl]
  · unfold pointMult
    rw [requireOnCurve_ok hGonc, okBind]
    show ec.affine_from_jac (pointMultJacobian ec (ec.n % ec.n) (jac_from_aff ec.G)) = _
    rw [Int.emod_self, pointMultJacobian_zero]
    rfl
  · obtain ⟨PG, hPG⟩ := ARep_exists hg hGonc
    have hpm : pointMult ec (ec.n - 1) ec.G =
        .ok (encodePoint (((ec.n - 1) % ec.n).toNat • PG)) := pointMult_rep hg hPG
    unfold checkOrder at hIeq
    rw [hpm] at hIeq
    simp only [okBind] at hIeq
    rw [add_rep hg (encode_ARep hT (((ec.n - 1) % ec.n).toNat • PG)) hPG] at hIeq
    injection hIeq with hIenc
    rw [← hIenc] at hIy
    have hzero : ((ec.n - 1) % ec.n).toNat • PG + PG = 0 :=
      encodePoint_y_zero_point hT hIy
    have hneg : ((ec.n - 1) % ec.n).toNat • PG = -PG := by
      rwa [add_eq_zero_iff_eq_neg] at hzero
    rw [hpm, hneg]
    unfold EC.opposite
    rw [requireOnCurve_ok hGonc, okBind]
    by_cases hGy : ec.G.y = 0
    · rw [if_pos hGy, hcan hGy, ARep_infinity hPG hGy, neg_zero]
      rfl
    · rw [if_neg hGy]
      cases PG with
      | zero => exact absurd hPG hGy
      | some hns =>
        rename_i xg yg
        obtain ⟨hgy0, hgy1, hgxc, hgyc⟩ := hPG
        rw [WeierstrassCurve.Affine.Point.neg_some]
        have hXe : ec.G.x = ((xg.val : ℤ)) := int_eq_val_of_cast_eq hx0 hx1 hgxc
        have hYe : ec.p - ec.G.y = (((curveW q ec.a ec.b).negY xg yg).val : ℤ) := by
          rw [hg.hp]
          apply int_eq_val_of_cast_eq (by omega) (by omega)
          rw [curveW_negY]
          push_cast
          rw [ZMod.natCast_self]
          linear_combination - hgyc
        rw [hXe, hYe]
        rfl

/-- C5 witness: the amended statement applied on `ecW`. -/
theorem pointMult_order_and_pred_witness :
    pointMult ecW 9 ⟨2, 5⟩ = pointMult ecW (9 % ecW.n) ⟨2, 5⟩ ∧
    pointMult ecW ecW.n ecW.G = .ok ⟨1, 0⟩ ∧
    pointMult ecW (ecW.n - 1) ecW.G = ecW.opposite ecW.G := by
  have H := pointMult_order_and_pred 7 (by norm_num) 7 1 1 ⟨0, 1⟩ 5 2 0 false ecW
    (by decide) rfl (by decide) (by decide) (by decide) (by decide)
  exact ⟨H.1 9 ⟨2, 5⟩, H.2.1, H.2.2⟩

/-- C7 (amended): for an on-curve finite point with reduced x-coordinate, on a
curve with odd prime field size, `yOdd(P.x, P.y mod 2)` returns exactly `P.y`. -/
theorem yOdd_roundtrip_reduced : ∀ (q : ℕ), Nat.Prime q → q ≠ 2 →
    ∀ ec : EC, ec.p = (q : ℤ) →
    ∀ P : Point, ec.isOnCurve P = .ok true → P.y ≠ 0 → 0 ≤ P.x → P.x < ec.p →
    ec.yOdd P.x (P.y % 2) = .ok P.y := by
  intro q hq hq2 ec hp P honc hy hx0 hx1
  haveI : Fact q.Prime := ⟨hq⟩
  rw [isOnCurve_ok_true_iff hp] at honc
  rcases honc with h0 | ⟨hy0, hy1, heq⟩
  · exact absurd h0 hy
  have hq1 : 1 < q := hq.one_lt
  have hoddq : q % 2 = 1 := Nat.odd_iff.mp (hq.odd_of_ne_two hq2)
  have hsqz : ((ec.y2 P.x : ℤ) : ZMod q) = ((P.y : ZMod q)) ^ 2 := by
    unfold EC.y2
    rw [hp, castInt_emod]
    push_cast
    linear_combination - heq
  have hyne : ((P.y : ZMod q)) ≠ 0 := fun hz =>
    hy (int_eq_zero_of_cast_eq_zero (le_of_lt hy0) hy1 hz)
  obtain ⟨r, hmr, hr0, hr1, hrsq⟩ := mod_sqrt_spec hq2 hsqz hyne
  have hcases : r = P.y ∨ r = (q : ℤ) - P.y := by
    have hzz : ((r : ZMod q) - (P.y : ZMod q)) * ((r : ZMod q) + (P.y : ZMod q)) = 0 := by
      have hrr := hrsq.trans hsqz
      linear_combination hrr
    rcases mul_eq_zero.mp hzz with hcase | hcase
    · left
      exact int_eq_of_cast_eq hr0 hr1 (le_of_lt hy0) hy1 (by linear_combination hcase)
    · right
      apply int_eq_of_cast_eq hr0 hr1 (by omega) (by omega)
      push_cast
      rw [ZMod.natCast_self]
      linear_combination hcase
  have hyx : ec.y P.x = .ok r := by
    unfold EC.y
    rw [if_neg (not_not_intro ⟨hx0, hx1⟩), hp]
    exact hmr
  unfold EC.yOdd
  rw [if_neg (by omega : ¬(P.y % 2 ≠ 0 ∧ P.y % 2 ≠ 1)), pureBind, hyx, okBind]
  rcases hcases with rfl | hrq
  · rw [if_pos rfl]
    rfl
  · have hpar : ¬(r % 2 = P.y % 2) := by omega
    rw [if_neg hpar, hp, hrq]
    have hcancel : (q : ℤ) - ((q : ℤ) - P.y) = P.y := by ring
    rw [hcancel]
    rfl

/-- C1: for a curve with p ≡ 3 (mod 4) and a reduced x whose cubic value is a
(nonzero) quadratic residue mod p, `yQuadraticResidue(x, want_qr)` returns, for
each `want_qr ∈ {0, 1}`, the square root whose Legendre symbol — with the value
p − 1 read as 0 — equals `want_qr`; for p ≢ 3 (mod 4) it fails with the
unsupported-prime error. -/
theorem yQuadraticResidue_spec : (∀ (q : ℕ), Nat.Prime q → q % 4 = 3 →
    ∀ ec : EC, ec.p = (q : ℤ) → ∀ x : ℤ, 0 ≤ x → x < ec.p →
    legendre_symbol (ec.y2 x) ec.p = 1 →
    ∀ qr : ℤ, qr = 0 ∨ qr = 1 →
    ∃ r : ℤ, ec.yQuadraticResidue x qr = .ok r ∧ 0 ≤ r ∧ r < ec.p ∧
      r * r % ec.p = ec.y2 x ∧
      (if legendre_symbol r ec.p = ec.p - 1 then 0 else legendre_symbol r ec.p) = qr) ∧
    (∀ ec : EC, ¬ec.pIsThreeModFour → ∀ x qr : ℤ, qr = 0 ∨ qr = 1 →
      ec.yQuadraticResidue x qr = .error .unsupportedPrime) := by
  constructor
  · intro q hq hq4 ec hp x hx0 hx1 hleg qr hqr
    haveI : Fact q.Prime := ⟨hq⟩
    have hq3 : 3 ≤ q := by
      rcases Nat.lt_or_ge q 3 with hlt | hge
      · interval_cases q <;> omega
      · exact hge
    have hq2 : q ≠ 2 := by omega
    have hq4i : (q : ℤ) % 4 = 3 := by omega
    have hp34 : ec.pIsThreeModFour := by
      unfold EC.pIsThreeModFour
      rw [hp]
      exact hq4i
    have hflag : ¬(qr ≠ 0 ∧ qr ≠ 1) := by
      rcases hqr with rfl | rfl <;> simp
    have htn : (((q : ℤ) - 1) / 2).toNat = (q - 1) / 2 := by omega
    unfold legendre_symbol at hleg
    rw [hp, htn] at hleg
    have hlegz : ((ec.y2 x : ℤ) : ZMod q) ^ ((q - 1) / 2) = 1 := by
      have hc := congrArg (fun z : ℤ => ((z : ZMod q))) hleg
      simpa only [castInt_emod, Int.cast_pow, Int.cast_one] using hc
    have haz : ((ec.y2 x : ℤ) : ZMod q) ≠ 0 := by
      intro h0
      rw [h0, zero_pow (by omega : (q - 1) / 2 ≠ 0)] at hlegz
      exact one_ne_zero hlegz.symm
    have hy2r : 0 ≤ ec.y2 x ∧ ec.y2 x < (q : ℤ) := by
      unfold EC.y2
      rw [hp]
      exact emod_range _
    set e := (((q : ℤ) + 1) / 4).toNat with he
    set root := ec.y2 x ^ e % (q : ℤ) with hroot
    have hrootc : ((root : ℤ) : ZMod q) = ((ec.y2 x : ℤ) : ZMod q) ^ e := by
      rw [hroot, castInt_emod]
      push_cast
      rfl
    have he2 : e * 2 = (q - 1) / 2 + 1 := by omega
    have hsqr : ((root : ℤ) : ZMod q) ^ 2 = ((ec.y2 x : ℤ) : ZMod q) := by
      rw [hrootc, ← pow_mul, he2, pow_succ, hlegz, one_mul]
    have hvrf : root * root % (q : ℤ) = ec.y2 x % (q : ℤ) := by
      rw [emod_eq_emod_iff_cast]
      push_cast
      calc ((root : ℤ) : ZMod q) * ((root : ℤ) : ZMod q)
          = ((root : ℤ) : ZMod q) ^ 2 := by ring
        _ = ((ec.y2 x : ℤ) : ZMod q) := hsqr
    have hms : mod_sqrt (ec.y2 x) (q : ℤ) = .ok root := by
      unfold mod_sqrt
      rw [if_pos hq4i, if_pos hvrf]
    have hyx : ec.y x = .ok root := by
      unfold EC.y
      rw [if_neg (not_not_intro ⟨hx0, hx1⟩), hp]
      exact hms
    have hrne : ((root : ℤ) : ZMod q) ≠ 0 := by
      rw [hrootc]
      exact pow_ne_zero e haz
    have hrrange := @emod_range q _ (ec.y2 x ^ e)
    have hroot0 : 0 < root := by
      have hge : 0 ≤ root := by
        rw [hroot]
        exact hrrange.1
      rcases hge.lt_or_eq with hlt | heq0
      · exact hlt
      · exfalso
        apply hrne
        rw [← heq0]
        norm_num
    have hrootq : root < (q : ℤ) := by
      rw [hroot]
      exact hrrange.2
    have hlegroot : legendre_symbol root ec.p = 1 := by
      unfold legendre_symbol
      rw [hp, htn]
      apply int_eq_of_cast_eq (emod_range _).1 (emod_range _).2
        (by norm_num) (by omega)
      rw [castInt_emod]
      push_cast
      rw [hrootc, ← pow_mul, mul_comm, pow_mul, hlegz, one_pow]
    have hsodd : Odd ((q - 1) / 2) := by
      refine ⟨(q - 3) / 4, by omega⟩
    have hlegopp : legendre_symbol (ec.p - root) ec.p = ec.p - 1 := by
      unfold legendre_symbol
      rw [hp, htn]
      apply int_eq_of_cast_eq (emod_range _).1 (emod_range _).2 (by omega) (by omega)
      rw [castInt_emod]
      push_cast
      rw [ZMod.natCast_self, zero_sub, zero_sub, neg_pow, hrootc,
        ← pow_mul, mul_comm e ((q - 1) / 2), pow_mul, hlegz, one_pow,
        hsodd.neg_one_pow]
      ring
    unfold EC.yQuadraticResidue
    rw [if_neg hflag, pureBind, if_neg (not_not_intro hp34), pureBind, hyx, okBind]
    rcases hqr with rfl | rfl
    · rw [if_neg (show ¬legendre_symbol root ec.p = 0 by rw [hlegroot]; norm_num)]
      refine ⟨ec.p - root, rfl, ?_, ?_, ?_, ?_⟩
      · rw [hp]
        omega
      · rw [hp]
        omega
      · have hle : 0 ≤ (ec.p - root) * (ec.p - root) % ec.p ∧
            (ec.p - root) * (ec.p - root) % ec.p < (q : ℤ) := by
          rw [hp]
          exact emod_range _
        apply int_eq_of_cast_eq hle.1 hle.2 hy2r.1 hy2r.2
        rw [hp, castInt_emod]
        push_cast
        rw [ZMod.natCast_self]
        calc ((0 : ZMod q) - ((root : ℤ) : ZMod q)) * (0 - ((root : ℤ) : ZMod q))
            = ((root : ℤ) : ZMod q) ^ 2 := by ring
          _ = _ := hsqr
      · rw [hlegopp, if_pos rfl]
    · rw [if_pos hlegroot]
      refine ⟨root, rfl, le_of_lt hroot0, by rw [hp]; exact hrootq, ?_, ?_⟩
      · apply int_eq_of_cast_eq (by rw [hp]; exact (emod_range _).1)
          (by rw [hp]; exact (emod_range _).2) hy2r.1 hy2r.2
        rw [hp, castInt_emod]
        push_cast
        calc ((root : ℤ) : ZMod q) * ((root : ℤ) : ZMod q)
            = ((root : ℤ) : ZMod q) ^ 2 := by ring
          _ = _ := hsqr
      · rw [hlegroot, if_neg (by rw [hp]; omega : ¬(1 : ℤ) = ec.p - 1)]
  · intro ec h34 x qr hqr
    have hflag : ¬(qr ≠ 0 ∧ qr ≠ 1) := by
      rcases hqr with rfl | rfl <;> simp
    unfold EC.yQuadraticResidue
    rw [if_neg hflag, pureBind, if_pos h34]
    rfl

/-- C1 witness: the both parts applied concretely — on `ecT` (p = 7) at x = 0
with `want_qr = 1`, and on a raw curve state with p = 13 where the
unsupported-prime error is raised. -/
theorem yQuadraticResidue_spec_witness :
    (∃ r : ℤ, ecT.yQuadraticResidue 0 1 = .ok r ∧ 0 ≤ r ∧ r < ecT.p ∧
      r * r % ecT.p = ecT.y2 0 ∧
      (if legendre_symbol r ecT.p = ecT.p - 1 then 0 else legendre_symbol r ecT.p) = 1) ∧
    (⟨13, 0, 1, ⟨1, 0⟩, 5, 1, 0⟩ : EC).yQuadraticResidue 0 0 =
      .error .unsupportedPrime :=
  ⟨yQuadraticResidue_spec.1 7 (by norm_num) (by decide) ecT rfl 0 (by decide)
      (by decide) (by decide) 1 (Or.inr rfl),
    yQuadraticResidue_spec.2 ⟨13, 0, 1, ⟨1, 0⟩, 5, 1, 0⟩ (by decide) 0 0 (Or.inl rfl)⟩

/-- C7 witness: the amended round-trip applied on `ecW` at `(0, 1)`. -/
theorem yOdd_roundtrip_reduced_witness :
    ecW.yOdd 0 (1 % 2) = .ok 1 :=
  yOdd_roundtrip_reduced 7 (by norm_num) (by decide) ecW rfl ⟨0, 1⟩ (by decide)
    (by decide) (by decide) (by decide)

end Btclib
